import Mathlib

/-!
Verification of the daily-condition selector and daily aggregator of the
fmi-hass-custom integration.

The selector is a shallow embedding of the function
src/custom_components/fmi/utils.py: select_daily_condition (together with its
inner helpers select_from_tier and time_weight).  Timestamps are modelled by
the PyTime structure below; the code only ever reads the integer hour
component of a timestamp (t.hour), so PyTime carries the hour plus a minute
component used to express that sub-hour precision is irrelevant.

Python dictionaries (collections.defaultdict / Counter) preserve insertion
order; they are modelled as association lists grown at the right end, which
reproduces the exact iteration order the Python code sees.  Python's min()
with a key function keeps the first element on ties; it is modelled as a left
fold that replaces the current best only on a strictly smaller key.  The key
returned by time_weight is sum(distances)/len(distances) computed in floating
point; comparisons between such keys are modelled exactly on rationals via
cross multiplication (the float comparison agrees with the exact rational
comparison for all realizable magnitudes, as the quantities are small
integers).
-/

/-- Model of a Python datetime as far as select_daily_condition observes it:
the code reads only the integer hour-of-day component; the minute component
is carried to state that sub-hour precision never influences the result. -/
structure PyTime where
  hour : Nat
  minute : Nat
deriving DecidableEq, Repr

/-- Modelled from the spec: const.WEATHER_CONDITION_SEVERITY (const.py is not
under src/).  Spec section 3 fixes the tier boundaries (severe >= 90,
precipitation in [55,90), visibility in [37,55), ordinary < 37) and the tier
membership of each label; the individual scores within a tier are chosen
consistently with that partition. -/
def WEATHER_CONDITION_SEVERITY : List (String × Nat) :=
  [ ("lightning-rainy", 95)
  , ("lightning", 90)
  , ("pouring", 80)
  , ("snowy-rainy", 70)
  , ("snowy", 65)
  , ("rainy", 60)
  , ("fog", 40)
  , ("cloudy", 20)
  , ("partlycloudy", 10)
  , ("sunny", 0)
  , ("clear-night", 0) ]

/-- const.WEATHER_CONDITION_SEVERITY.get(condition, 0): severity lookup with
default 0 for unknown labels. -/
def sevOf (c : String) : Nat :=
  ((WEATHER_CONDITION_SEVERITY.find? (fun e => e.1 = c)).map Prod.snd).getD 0

/-- Modelled from the spec: const.CONDITION_THRESHOLDS (const.py is not under
src/); spec section 3 ThresholdConfig: severe=1, precipitation=3,
visibility=4. -/
def THRESHOLD_severe : Nat := 1

/-- Modelled from the spec: const.CONDITION_THRESHOLDS, precipitation tier. -/
def THRESHOLD_precipitation : Nat := 3

/-- Modelled from the spec: const.CONDITION_THRESHOLDS, visibility tier. -/
def THRESHOLD_visibility : Nat := 4

/-- Modelled from the spec: const.DAYTIME_START_HOUR (DaytimeWindow 7..20). -/
def DAYTIME_START_HOUR : Nat := 7

/-- Modelled from the spec: const.DAYTIME_END_HOUR (DaytimeWindow 7..20). -/
def DAYTIME_END_HOUR : Nat := 20

/-- Step 0 of select_daily_condition: a single condition label is normalized,
replacing clear-night by sunny. -/
def normCond (c : String) : String :=
  if c = "clear-night" then "sunny" else c

/-- The normalized_conditions list comprehension of select_daily_condition. -/
def normalizePairs (ps : List (PyTime × String)) : List (PyTime × String) :=
  ps.map (fun pr => (pr.1, normCond pr.2))

/-- An insertion-ordered dictionary from condition label to the list of
occurrence times, as built by defaultdict(list) in the source. -/
abbrev CondDict := List (String × List PyTime)

/-- One defaultdict(list) update conditions_dict[condition].append(time):
appends the time to the entry of the condition, creating the entry at the end
of the insertion order when absent. -/
def addToDict (d : CondDict) (c : String) (t : PyTime) : CondDict :=
  if d.any (fun e => e.1 = c) then
    d.map (fun e => if e.1 = c then (e.1, e.2 ++ [t]) else e)
  else
    d ++ [(c, [t])]

/-- The loop of select_daily_condition that distributes the normalized pairs
into per-tier dictionaries, restricted to one tier predicate p. -/
def collectP (p : PyTime × String → Bool) (ps : List (PyTime × String)) : CondDict :=
  ps.foldl (fun d pr => if p pr then addToDict d pr.2 pr.1 else d) []

/-- Tier 1 membership test of the distribution loop: severity >= 90. -/
def isSevere (pr : PyTime × String) : Bool := 90 ≤ sevOf pr.2

/-- Tier 2-3 membership test: 55 <= severity < 90 (the elif chain). -/
def isPrecip (pr : PyTime × String) : Bool := 55 ≤ sevOf pr.2 && sevOf pr.2 < 90

/-- Tier 4 membership test: 37 <= severity < 55 (the elif chain). -/
def isVis (pr : PyTime × String) : Bool := 37 ≤ sevOf pr.2 && sevOf pr.2 < 55

/-- severe_conditions of select_daily_condition. -/
def severeDict (n : List (PyTime × String)) : CondDict := collectP isSevere n

/-- precipitation_conditions of select_daily_condition. -/
def precipDict (n : List (PyTime × String)) : CondDict := collectP isPrecip n

/-- visibility_conditions of select_daily_condition. -/
def visDict (n : List (PyTime × String)) : CondDict := collectP isVis n

/-- abs(t.hour - 12), the integer distance of an hour from noon used by
time_weight. -/
def dist12 (h : Nat) : Nat := if h ≤ 12 then 12 - h else h - 12

/-- The numerator of time_weight: sum of abs(t.hour - 12) over the times
list.  time_weight itself is this sum divided by the list length; the
division is never materialized, comparisons are done by cross
multiplication. -/
def timeWeightNum (ts : List PyTime) : Nat :=
  (ts.map (fun t => dist12 t.hour)).sum

/-- Exact comparison time_weight(a.2) < time_weight(b.2), by cross
multiplication of the two mean distances. -/
def twLt (a b : String × List PyTime) : Bool :=
  timeWeightNum a.2 * b.2.length < timeWeightNum b.2 * a.2.length

/-- Python min(entries, key=time_weight): left fold keeping the first entry
on ties, replacing the best only on a strictly smaller time weight. -/
def minByTW (p : String × List PyTime) (rest : List (String × List PyTime)) :
    String × List PyTime :=
  rest.foldl (fun best x => if twLt x best then x else best) p

/-- The qualifying dictionary comprehension of select_from_tier: entries
whose occurrence list reaches the threshold. -/
def qualifying (d : CondDict) (th : Nat) : CondDict :=
  d.filter (fun e => th ≤ e.2.length)

/-- max_severity of select_from_tier over the qualifying conditions
(max over an empty collection is never taken on the reachable paths). -/
def tierMaxSev (q : CondDict) : Nat :=
  (q.map (fun e => sevOf e.1)).foldl max 0

/-- top_conditions of select_from_tier: the qualifying entries whose
severity equals the maximum. -/
def topConditions (q : CondDict) : CondDict :=
  q.filter (fun e => sevOf e.1 = tierMaxSev q)

/-- select_from_tier of utils.py: None for an empty tier or when nothing
reaches the threshold, the unique top condition when the maximum severity is
attained once, otherwise the time-weighted minimum among the tied top
conditions. -/
def select_from_tier (d : CondDict) (th : Nat) : Option String :=
  if d.isEmpty then none
  else if (qualifying d th).isEmpty then none
  else
    match topConditions (qualifying d th) with
    | [] => none
    | [e] => some e.1
    | e :: rest => some (minByTW e rest).1

/-- STEP 1 of select_daily_condition. -/
def severeStep (n : List (PyTime × String)) : Option String :=
  select_from_tier (severeDict n) THRESHOLD_severe

/-- STEP 2 of select_daily_condition. -/
def precipStep (n : List (PyTime × String)) : Option String :=
  select_from_tier (precipDict n) THRESHOLD_precipitation

/-- STEP 3 of select_daily_condition. -/
def visStep (n : List (PyTime × String)) : Option String :=
  select_from_tier (visDict n) THRESHOLD_visibility

/-- Python truthiness of a tier result as tested by the if statements of
select_daily_condition: None and the empty string are falsy. -/
def pyTruthy : Option String → Bool
  | none => false
  | some s => s ≠ ""

/-- Extracts the string of a truthy tier result (the branch return). -/
def getOr (o : Option String) : String := o.getD ""

/-- collections.Counter built over a list of labels, as an association list
in first-insertion order (Counter preserves insertion order). -/
def countsInOrder (xs : List String) : List (String × Nat) :=
  xs.foldl
    (fun acc c =>
      if acc.any (fun e => e.1 = c) then
        acc.map (fun e => if e.1 = c then (e.1, e.2 + 1) else e)
      else acc ++ [(c, 1)])
    []

/-- counter.most_common(1)[0][1]: the maximal count of the counter. -/
def maxCount (l : List (String × Nat)) : Nat :=
  (l.map Prod.snd).foldl max 0

/-- condition_counts.most_common(1)[0][0] of STEP 5: the first-encountered
label among those with the maximal count (Counter.most_common is a stable
descending sort of the insertion-ordered items). -/
def firstMostCommon (xs : List String) : Option String :=
  match countsInOrder xs with
  | [] => none
  | e :: rest =>
      some (rest.foldl (fun best q => if best.2 < q.2 then q else best) e).1

/-- The daytime-window test DAYTIME_START_HOUR <= time.hour <=
DAYTIME_END_HOUR of STEP 4. -/
def daytimeOk (t : PyTime) : Bool :=
  DAYTIME_START_HOUR ≤ t.hour && t.hour ≤ DAYTIME_END_HOUR

/-- daytime_conditions of STEP 4: the labels of the normalized pairs whose
hour lies in the daytime window. -/
def daytimeConds (n : List (PyTime × String)) : List String :=
  (n.filter (fun pr => daytimeOk pr.1)).map Prod.snd

/-- most_common of STEP 4: all labels of the daytime counter having the
maximal count, in counter (first-insertion) order. -/
def mostCommonList (n : List (PyTime × String)) : List String :=
  ((countsInOrder (daytimeConds n)).filter
    (fun e => e.2 = maxCount (countsInOrder (daytimeConds n)))).map Prod.fst

/-- condition_times of STEP 4: times of the daytime occurrences of the tied
most-common labels, rebuilt from the normalized pairs. -/
def condTimes (n : List (PyTime × String)) : CondDict :=
  collectP (fun pr => (mostCommonList n).contains pr.2 && daytimeOk pr.1) n

/-- STEP 4 of select_daily_condition: none when no pair falls in the daytime
window (the Python block is skipped), the unique most common daytime label,
or the time-weighted minimum among the tied labels.  The empty condTimes
branch models the unreachable ValueError of min() over an empty dict. -/
def step4 (n : List (PyTime × String)) : Option String :=
  if (daytimeConds n).isEmpty then none
  else
    match mostCommonList n with
    | [c] => some c
    | _ =>
      match condTimes n with
      | [] => some ""
      | e :: rest => some (minByTW e rest).1

/-- STEP 5 of select_daily_condition (the getD branch models the unreachable
IndexError of most_common(1)[0] on an empty counter). -/
def step5 (n : List (PyTime × String)) : String :=
  (firstMostCommon (n.map Prod.snd)).getD ""

/-- select_daily_condition of utils.py: default for empty input, then the
tier cascade with Python truthiness tests, then the daytime fallback, then
the global fallback. -/
def select_daily_condition (ps : List (PyTime × String)) : String :=
  if ps.isEmpty then "sunny"
  else if pyTruthy (severeStep (normalizePairs ps)) then
    getOr (severeStep (normalizePairs ps))
  else if pyTruthy (precipStep (normalizePairs ps)) then
    getOr (precipStep (normalizePairs ps))
  else if pyTruthy (visStep (normalizePairs ps)) then
    getOr (visStep (normalizePairs ps))
  else
    match step4 (normalizePairs ps) with
    | some c => c
    | none => step5 (normalizePairs ps)

/-! ### Spec-side variant for the distinct-hours reading of qualification

The spec sentence behind claim C2 reads the tier thresholds as counting
distinct hours.  The following clearly named variant follows that wording;
it differs from select_from_tier only in the qualification test. -/

/-- Variant of the qualifying comprehension following the spec's words: a
condition qualifies when it occurs in at least the threshold number of
DISTINCT hours (duplicate hours counted once). -/
def qualifyingDistinctHours (d : CondDict) (th : Nat) : CondDict :=
  d.filter (fun e => th ≤ ((e.2.map PyTime.hour).dedup).length)

/-- Variant of select_from_tier with the distinct-hours qualification of the
spec's words. -/
def select_from_tier_distinctHours (d : CondDict) (th : Nat) : Option String :=
  if d.isEmpty then none
  else if (qualifyingDistinctHours d th).isEmpty then none
  else
    match topConditions (qualifyingDistinctHours d th) with
    | [] => none
    | [e] => some e.1
    | e :: rest => some (minByTW e rest).1

/-- Variant of select_daily_condition whose three tier steps use the
distinct-hours qualification of the spec's words; all other steps are
unchanged. -/
def select_daily_condition_distinctHours (ps : List (PyTime × String)) : String :=
  if ps.isEmpty then "sunny"
  else
    let n := normalizePairs ps
    if pyTruthy (select_from_tier_distinctHours (severeDict n) THRESHOLD_severe) then
      getOr (select_from_tier_distinctHours (severeDict n) THRESHOLD_severe)
    else if pyTruthy (select_from_tier_distinctHours (precipDict n) THRESHOLD_precipitation) then
      getOr (select_from_tier_distinctHours (precipDict n) THRESHOLD_precipitation)
    else if pyTruthy (select_from_tier_distinctHours (visDict n) THRESHOLD_visibility) then
      getOr (select_from_tier_distinctHours (visDict n) THRESHOLD_visibility)
    else
      match step4 n with
      | some c => c
      | none => step5 n

/-! ### Daily aggregator (modelled from the spec)

The aggregating entity (weather.py) is not part of the sources under
verification; only its tests are.  The definitions below are modelled from
spec sections 3 and 4.1. -/

/-- Modelled from the spec: a raw hourly numeric value as delivered by the
upstream provider, which is either absent (null), the floating point
not-a-number sentinel, or a finite value (weather.py is not under src/). -/
inductive RawVal where
  | absent
  | nan
  | val (q : ℚ)
deriving DecidableEq

/-- Modelled from the spec: NaN values are normalized to absent before any
reduction, identically to null. -/
def normalizeVal : RawVal → Option ℚ
  | .absent => none
  | .nan => none
  | .val q => some q

/-- The present values of a field across a day group, after NaN
normalization. -/
def presentVals (vs : List RawVal) : List ℚ := vs.filterMap normalizeVal

/-- Modelled from the spec: the precipitation reduction, sum of present
values, absent when every contribution is absent (weather.py is not under
src/). -/
def sumPresent (vs : List RawVal) : Option ℚ :=
  match presentVals vs with
  | [] => none
  | l => some (l.foldl (· + ·) 0)

/-- Modelled from the spec: max-of-present reduction (temperature high). -/
def maxPresent (vs : List RawVal) : Option ℚ :=
  match presentVals vs with
  | [] => none
  | x :: xs => some (xs.foldl max x)

/-- Modelled from the spec: min-of-present reduction (temperature low). -/
def minPresent (vs : List RawVal) : Option ℚ :=
  match presentVals vs with
  | [] => none
  | x :: xs => some (xs.foldl min x)

/-- Modelled from the spec: one hourly record, restricted to the fields the
claims under verification mention; day is the local calendar date key. -/
structure HourlyRecord where
  day : Nat
  time : PyTime
  condition : String
  temperature : RawVal
  precipitation_amount : RawVal
deriving DecidableEq

/-- Modelled from the spec: one reduced daily record (claim-relevant
fields). -/
structure DailyRecord where
  condition : String
  temperature_high : Option ℚ
  temperature_low : Option ℚ
  precipitation_total : Option ℚ
deriving DecidableEq

/-- Modelled from the spec: the per-group reduction of the daily aggregator,
one reduction per field, with the condition delegated to
select_daily_condition on the group's (timestamp, condition) pairs. -/
def dailyRecord (g : List HourlyRecord) : DailyRecord :=
  { condition := select_daily_condition (g.map (fun r => (r.time, r.condition)))
  , temperature_high := maxPresent (g.map (fun r => r.temperature))
  , temperature_low := minPresent (g.map (fun r => r.temperature))
  , precipitation_total := sumPresent (g.map (fun r => r.precipitation_amount)) }

/-- Modelled from the spec: partition of the chronologically ordered hourly
records into contiguous groups sharing the same local calendar date, emitted
in order of their first member. -/
def groupByDay (rs : List HourlyRecord) : List (List HourlyRecord) :=
  let res := rs.foldl
    (fun (acc : List (List HourlyRecord) × Option (Nat × List HourlyRecord)) r =>
      match acc.2 with
      | none => (acc.1, some (r.day, [r]))
      | some (d, cur) =>
        if r.day = d then (acc.1, some (d, cur ++ [r]))
        else (acc.1 ++ [cur], some (r.day, [r])))
    ([], none)
  match res.2 with
  | none => res.1
  | some (_, cur) => res.1 ++ [cur]

/-- Modelled from the spec: the daily aggregator, one reduced record per
day group. -/
def aggregate (rs : List HourlyRecord) : List DailyRecord :=
  (groupByDay rs).map dailyRecord

/-! ### Generic fold lemmas -/

/-- A left max-fold either returns its seed or a list member. -/
theorem foldl_max_eq_or_mem {α} [LinearOrder α] :
    ∀ (l : List α) (a : α), l.foldl max a = a ∨ l.foldl max a ∈ l := by
  intro l
  induction l with
  | nil => intro a; exact Or.inl rfl
  | cons b l ih =>
    intro a
    rcases ih (max a b) with h | h
    · rcases max_choice a b with hc | hc
      · exact Or.inl (h.trans hc)
      · exact Or.inr (by rw [List.foldl_cons, h, hc]; exact List.mem_cons_self _ _)
    · exact Or.inr (List.mem_cons_of_mem _ h)

/-- The seed is below a left max-fold. -/
theorem le_foldl_max {α} [LinearOrder α] :
    ∀ (l : List α) (a : α), a ≤ l.foldl max a := by
  intro l
  induction l with
  | nil => intro a; exact le_refl a
  | cons b l ih => intro a; exact le_trans (le_max_left a b) (ih (max a b))

/-- Every list member is below a left max-fold. -/
theorem mem_le_foldl_max {α} [LinearOrder α] :
    ∀ (l : List α) (a x : α), x ∈ l → x ≤ l.foldl max a := by
  intro l
  induction l with
  | nil => intro a x hx; cases hx
  | cons b l ih =>
    intro a x hx
    rcases List.mem_cons.1 hx with rfl | hx
    · exact le_trans (le_max_right a x) (le_foldl_max l (max a x))
    · exact ih (max a b) x hx

/-- A left min-fold either returns its seed or a list member. -/
theorem foldl_min_eq_or_mem {α} [LinearOrder α] :
    ∀ (l : List α) (a : α), l.foldl min a = a ∨ l.foldl min a ∈ l := by
  intro l
  induction l with
  | nil => intro a; exact Or.inl rfl
  | cons b l ih =>
    intro a
    rcases ih (min a b) with h | h
    · rcases min_choice a b with hc | hc
      · exact Or.inl (h.trans hc)
      · exact Or.inr (by rw [List.foldl_cons, h, hc]; exact List.mem_cons_self _ _)
    · exact Or.inr (List.mem_cons_of_mem _ h)

/-- A left min-fold is below its seed. -/
theorem foldl_min_le {α} [LinearOrder α] :
    ∀ (l : List α) (a : α), l.foldl min a ≤ a := by
  intro l
  induction l with
  | nil => intro a; exact le_refl a
  | cons b l ih => intro a; exact le_trans (ih (min a b)) (min_le_left a b)

/-- A left min-fold is below every list member. -/
theorem foldl_min_le_mem {α} [LinearOrder α] :
    ∀ (l : List α) (a x : α), x ∈ l → l.foldl min a ≤ x := by
  intro l
  induction l with
  | nil => intro a x hx; cases hx
  | cons b l ih =>
    intro a x hx
    rcases List.mem_cons.1 hx with rfl | hx
    · exact le_trans (foldl_min_le l (min a x)) (min_le_right a x)
    · exact ih (min a b) x hx

/-- A left add-fold over the rationals computes seed plus list sum. -/
theorem foldl_add_eq_sum :
    ∀ (l : List ℚ) (a : ℚ), l.foldl (· + ·) a = a + l.sum := by
  intro l
  induction l with
  | nil => intro a; simp
  | cons b l ih => intro a; simp [ih, add_assoc]

/-! ### Characterization of the tier dictionaries -/

/-- Occurrence times of a label among the pairs satisfying the collection
predicate, in input order. -/
def timesOfP (p : PyTime × String → Bool) (c : String)
    (ps : List (PyTime × String)) : List PyTime :=
  (ps.filter (fun pr => p pr && pr.2 = c)).map Prod.fst

/-- Occurrence times of a label among all pairs, in input order. -/
def timesOf (c : String) (ps : List (PyTime × String)) : List PyTime :=
  (ps.filter (fun pr => pr.2 = c)).map Prod.fst

/-- Number of (timestamp, condition) pairs of a list carrying a label. -/
def occCount (ps : List (PyTime × String)) (c : String) : Nat :=
  (timesOf c ps).length

theorem timesOfP_append_singleton (p : PyTime × String → Bool) (c : String)
    (l : List (PyTime × String)) (pr : PyTime × String) :
    timesOfP p c (l ++ [pr]) =
      timesOfP p c l ++ (if p pr && pr.2 = c then [pr.1] else []) := by
  unfold timesOfP
  rw [List.filter_append, List.map_append]
  congr 1
  by_cases h : (p pr && decide (pr.2 = c)) = true
  · simp [List.filter, h]
  · simp only [Bool.not_eq_true] at h
    simp [List.filter, h]

theorem collectP_append_singleton (p : PyTime × String → Bool)
    (l : List (PyTime × String)) (pr : PyTime × String) :
    collectP p (l ++ [pr]) =
      if p pr then addToDict (collectP p l) pr.2 pr.1 else collectP p l := by
  unfold collectP
  rw [List.foldl_append]
  rfl

theorem timesOfP_snoc_self {p : PyTime × String → Bool} {r : PyTime × String}
    (l : List (PyTime × String)) (hp : p r = true) :
    timesOfP p r.2 (l ++ [r]) = timesOfP p r.2 l ++ [r.1] := by
  rw [timesOfP_append_singleton, if_pos (by simp [hp])]

theorem timesOfP_snoc_other {p : PyTime × String → Bool} {r : PyTime × String}
    {c : String} (l : List (PyTime × String))
    (h : ¬(p r = true ∧ r.2 = c)) :
    timesOfP p c (l ++ [r]) = timesOfP p c l := by
  rw [timesOfP_append_singleton, if_neg, List.append_nil]
  simpa using h

/-- The tier dictionaries are exactly: one entry per label that occurs among
the pairs satisfying the tier predicate, carrying all its occurrence times in
input order. -/
theorem mem_collectP (p : PyTime × String → Bool) :
    ∀ (ps : List (PyTime × String)) (e : String × List PyTime),
      e ∈ collectP p ps ↔ timesOfP p e.1 ps ≠ [] ∧ e.2 = timesOfP p e.1 ps := by
  intro ps
  induction ps using List.reverseRecOn with
  | nil =>
    intro e
    simp [collectP, timesOfP]
  | append_singleton l pr ih =>
    intro e
    rw [collectP_append_singleton]
    by_cases hp : p pr = true
    · rw [if_pos hp]
      unfold addToDict
      by_cases hany : (collectP p l).any (fun e => e.1 = pr.2) = true
      · rw [if_pos hany]
        have hold : timesOfP p pr.2 l ≠ [] := by
          rcases List.any_eq_true.1 hany with ⟨a, ha, hkey⟩
          have hch := (ih a).1 ha
          have hkey' : a.1 = pr.2 := by simpa using hkey
          rw [hkey'] at hch
          exact hch.1
        constructor
        · intro hmem
          rcases List.mem_map.1 hmem with ⟨a, ha, hfa⟩
          obtain ⟨hane, haval⟩ := (ih a).1 ha
          by_cases hkey : a.1 = pr.2
          · rw [if_pos (by simpa using hkey)] at hfa
            subst hfa
            show timesOfP p a.1 (l ++ [pr]) ≠ [] ∧
              a.2 ++ [pr.1] = timesOfP p a.1 (l ++ [pr])
            rw [hkey] at hane haval ⊢
            rw [timesOfP_snoc_self l hp]
            exact ⟨by simp, by rw [haval]⟩
          · rw [if_neg (by simpa using hkey)] at hfa
            subst hfa
            rw [timesOfP_snoc_other l (by rintro ⟨-, h2⟩; exact hkey h2.symm)]
            exact ⟨hane, haval⟩
        · rintro ⟨hne, hval⟩
          by_cases hkey : e.1 = pr.2
          · rw [hkey, timesOfP_snoc_self l hp] at hval
            rcases List.any_eq_true.1 hany with ⟨a, ha, hk⟩
            have hk' : a.1 = pr.2 := by simpa using hk
            have haval := ((ih a).1 ha).2
            refine List.mem_map.2 ⟨a, ha, ?_⟩
            rw [if_pos (by simpa using hk')]
            apply Prod.ext
            · show a.1 = e.1
              rw [hk', hkey]
            · show a.2 ++ [pr.1] = e.2
              rw [hval, haval, hk']
          · have hother := timesOfP_snoc_other (p := p) (r := pr) (c := e.1) l
              (by rintro ⟨-, h2⟩; exact hkey h2.symm)
            rw [hother] at hne hval
            refine List.mem_map.2 ⟨e, (ih e).2 ⟨hne, hval⟩, ?_⟩
            rw [if_neg (by simpa using hkey)]
      · rw [if_neg hany]
        have hnew : timesOfP p pr.2 l = [] := by
          by_contra hne
          have hmem : (pr.2, timesOfP p pr.2 l) ∈ collectP p l :=
            (ih (pr.2, timesOfP p pr.2 l)).2 ⟨hne, rfl⟩
          exact hany (List.any_eq_true.2 ⟨_, hmem, by simp⟩)
        constructor
        · intro hmem
          rcases List.mem_append.1 hmem with hmem | hmem
          · obtain ⟨hane, haval⟩ := (ih e).1 hmem
            have hkey : e.1 ≠ pr.2 := by
              intro hkey
              rw [hkey] at hane
              exact hane hnew
            rw [timesOfP_snoc_other l (by rintro ⟨-, h2⟩; exact hkey h2.symm)]
            exact ⟨hane, haval⟩
          · have he : e = (pr.2, [pr.1]) := by simpa using hmem
            subst he
            show timesOfP p pr.2 (l ++ [pr]) ≠ [] ∧
              [pr.1] = timesOfP p pr.2 (l ++ [pr])
            rw [timesOfP_snoc_self l hp, hnew, List.nil_append]
            exact ⟨by simp, rfl⟩
        · rintro ⟨hne, hval⟩
          by_cases hkey : e.1 = pr.2
          · rw [hkey, timesOfP_snoc_self l hp, hnew, List.nil_append] at hval
            have he : e = (pr.2, [pr.1]) := Prod.ext hkey hval
            exact List.mem_append.2 (Or.inr (by simp [he]))
          · have hother := timesOfP_snoc_other (p := p) (r := pr) (c := e.1) l
              (by rintro ⟨-, h2⟩; exact hkey h2.symm)
            rw [hother] at hne hval
            exact List.mem_append.2 (Or.inl ((ih e).2 ⟨hne, hval⟩))
    · rw [if_neg hp]
      rw [timesOfP_snoc_other l (by rintro ⟨h1, -⟩; exact hp h1)]
      exact ih e

/-! ### Properties of select_from_tier -/

theorem mem_qualifying {d : CondDict} {th : Nat} {e : String × List PyTime} :
    e ∈ qualifying d th ↔ e ∈ d ∧ th ≤ e.2.length := by
  simp [qualifying, List.mem_filter]

theorem mem_topConditions {q : CondDict} {e : String × List PyTime} :
    e ∈ topConditions q ↔ e ∈ q ∧ sevOf e.1 = tierMaxSev q := by
  simp [topConditions, List.mem_filter]

theorem tierMaxSev_ub {q : CondDict} {e : String × List PyTime} (he : e ∈ q) :
    sevOf e.1 ≤ tierMaxSev q :=
  mem_le_foldl_max _ 0 _ (List.mem_map.2 ⟨e, he, rfl⟩)

theorem tierMaxSev_attained {q : CondDict} (hq : q ≠ []) :
    ∃ e ∈ q, sevOf e.1 = tierMaxSev q := by
  rcases foldl_max_eq_or_mem (q.map fun e => sevOf e.1) 0 with h | h
  · obtain ⟨e, he⟩ := List.exists_mem_of_ne_nil q hq
    refine ⟨e, he, ?_⟩
    have h1 : sevOf e.1 ≤ tierMaxSev q := tierMaxSev_ub he
    have h2 : tierMaxSev q = 0 := h
    omega
  · obtain ⟨e, he, hev⟩ := List.mem_map.1 h
    exact ⟨e, he, hev⟩

theorem topConditions_ne_nil {q : CondDict} (hq : q ≠ []) :
    topConditions q ≠ [] := by
  obtain ⟨e, he, hev⟩ := tierMaxSev_attained hq
  intro h
  have hm : e ∈ topConditions q := mem_topConditions.2 ⟨he, hev⟩
  rw [h] at hm
  exact absurd hm (List.not_mem_nil e)

theorem minByTW_mem :
    ∀ (rest : List (String × List PyTime)) (e : String × List PyTime),
      minByTW e rest ∈ e :: rest := by
  intro rest
  induction rest with
  | nil => intro e; exact List.mem_cons_self _ _
  | cons x rest ih =>
    intro e
    show (rest.foldl (fun best y => if twLt y best then y else best)
      (if twLt x e then x else e)) ∈ e :: x :: rest
    have h := ih (if twLt x e then x else e)
    rcases List.mem_cons.1 h with h | h
    · rw [show minByTW (if twLt x e then x else e) rest =
        rest.foldl (fun best y => if twLt y best then y else best)
          (if twLt x e then x else e) from rfl] at h
      rw [h]
      by_cases hlt : twLt x e = true
      · rw [if_pos hlt]; exact List.mem_cons_of_mem _ (List.mem_cons_self _ _)
      · rw [if_neg hlt]; exact List.mem_cons_self _ _
    · exact List.mem_cons_of_mem _ (List.mem_cons_of_mem _ h)

theorem select_from_tier_mem_top {d : CondDict} {th : Nat} {w : String}
    (h : select_from_tier d th = some w) :
    ∃ ts, (w, ts) ∈ topConditions (qualifying d th) := by
  unfold select_from_tier at h
  by_cases hd : d.isEmpty = true
  · rw [if_pos hd] at h; exact Option.noConfusion h
  · rw [if_neg hd] at h
    by_cases hqe : (qualifying d th).isEmpty = true
    · rw [if_pos hqe] at h; exact Option.noConfusion h
    · rw [if_neg hqe] at h
      rcases htc : topConditions (qualifying d th) with _ | ⟨e, rest⟩
      · rw [htc] at h; exact Option.noConfusion h
      · rcases rest with _ | ⟨f, rest2⟩
        · rw [htc] at h
          have hw : e.1 = w := Option.some.inj h
          refine ⟨e.2, ?_⟩
          rw [← hw]
          simp
        · rw [htc] at h
          have hw : (minByTW e (f :: rest2)).1 = w := Option.some.inj h
          have hm := minByTW_mem (f :: rest2) e
          refine ⟨(minByTW e (f :: rest2)).2, ?_⟩
          rw [← hw]
          exact hm

theorem select_from_tier_ne_none {d : CondDict} {th : Nat}
    (hq : qualifying d th ≠ []) : select_from_tier d th ≠ none := by
  have hd : d ≠ [] := by
    intro hdn
    apply hq
    rw [hdn]
    rfl
  unfold select_from_tier
  rw [if_neg (by simpa [List.isEmpty_iff] using hd),
    if_neg (by simpa [List.isEmpty_iff] using hq)]
  have htop := topConditions_ne_nil hq
  rcases htc : topConditions (qualifying d th) with _ | ⟨e, _ | ⟨f, rest⟩⟩
  · exact absurd htc htop
  · simp [htc]
  · simp [htc]

/-! ### Tier dictionaries with condition-only predicates -/

theorem timesOfP_condOnly {p : PyTime × String → Bool} (q : String → Bool)
    (hpc : ∀ pr, p pr = q pr.2) (c : String) (ps : List (PyTime × String)) :
    timesOfP p c ps = if q c then timesOf c ps else [] := by
  by_cases hc : q c = true
  · rw [if_pos hc]
    unfold timesOfP timesOf
    congr 1
    apply List.filter_congr
    intro pr _
    rw [hpc pr]
    by_cases h2 : pr.2 = c
    · rw [h2, hc]
      simp
    · simp [h2]
  · rw [if_neg hc]
    refine List.map_eq_nil_iff.2 (List.filter_eq_nil_iff.2 ?_)
    intro pr _
    rw [hpc pr]
    simp only [Bool.and_eq_true, decide_eq_true_eq, not_and]
    intro hp h2
    rw [h2] at hp
    exact hc hp

theorem mem_collect_condOnly {p : PyTime × String → Bool} {q : String → Bool}
    (hpc : ∀ pr, p pr = q pr.2) {ps : List (PyTime × String)}
    {e : String × List PyTime} :
    e ∈ collectP p ps ↔
      q e.1 = true ∧ timesOf e.1 ps ≠ [] ∧ e.2 = timesOf e.1 ps := by
  rw [mem_collectP, timesOfP_condOnly q hpc]
  by_cases h : q e.1 = true
  · rw [if_pos h]
    simp [h]
  · rw [if_neg h]
    simp [h]

/-- Normalization does not touch the occurrences of a label other than sunny
and clear-night. -/
theorem timesOf_normalize {c : String} (hs : c ≠ "sunny")
    (hcn : c ≠ "clear-night") (ps : List (PyTime × String)) :
    timesOf c (normalizePairs ps) = timesOf c ps := by
  unfold timesOf normalizePairs
  rw [List.filter_map, List.map_map]
  have hfun :
      (Prod.fst ∘ fun pr : PyTime × String => (pr.1, normCond pr.2)) = Prod.fst :=
    funext fun pr => rfl
  rw [hfun]
  congr 1
  apply List.filter_congr
  intro pr _
  show decide (normCond pr.2 = c) = decide (pr.2 = c)
  unfold normCond
  by_cases h : pr.2 = "clear-night"
  · rw [if_pos h]
    have h1 : ¬("sunny" = c) := fun hh => hs hh.symm
    have h2 : ¬(pr.2 = c) := by rw [h]; exact fun hh => hcn hh.symm
    simp [h1, h2]
  · rw [if_neg h]

/-- When the severe tier produces a truthy winner, select_daily_condition
returns it. -/
theorem select_eq_severe {ps : List (PyTime × String)} {w : String}
    (hps : ps ≠ []) (hw : severeStep (normalizePairs ps) = some w)
    (hne : w ≠ "") : select_daily_condition ps = w := by
  unfold select_daily_condition
  rw [if_neg (by simpa [List.isEmpty_iff] using hps)]
  have htr : pyTruthy (some w) = true := by simp [pyTruthy, hne]
  rw [hw, if_pos htr]
  simp [getOr]

/-! ### Claim theorems: severe override, empty input, thresholds -/

/-- C1: whenever some condition of severity at least 90 occurs at least
THRESHOLD_severe times in the day, select_daily_condition returns a severe
condition that qualifies at the severe tier and carries the maximal severity
among the qualifying severe conditions, regardless of all other
occurrences. -/
theorem severe_safety_override (ps : List (PyTime × String)) (c : String)
    (hsev : 90 ≤ sevOf c) (hocc : THRESHOLD_severe ≤ occCount ps c) :
    90 ≤ sevOf (select_daily_condition ps) ∧
    (∃ ts, (select_daily_condition ps, ts) ∈
      qualifying (severeDict (normalizePairs ps)) THRESHOLD_severe) ∧
    sevOf (select_daily_condition ps) =
      tierMaxSev (qualifying (severeDict (normalizePairs ps)) THRESHOLD_severe) := by
  have hsun : c ≠ "sunny" := by
    intro h
    rw [h] at hsev
    have h0 : sevOf "sunny" = 0 := rfl
    omega
  have hcn : c ≠ "clear-night" := by
    intro h
    rw [h] at hsev
    have h0 : sevOf "clear-night" = 0 := rfl
    omega
  have hth1 : THRESHOLD_severe = 1 := rfl
  have hps : ps ≠ [] := by
    intro h
    rw [h] at hocc
    have h0 : occCount ([] : List (PyTime × String)) c = 0 := rfl
    omega
  have htimes : timesOf c (normalizePairs ps) = timesOf c ps :=
    timesOf_normalize hsun hcn ps
  have hlen : THRESHOLD_severe ≤ (timesOf c (normalizePairs ps)).length := by
    rw [htimes]
    exact hocc
  have hne : timesOf c (normalizePairs ps) ≠ [] := by
    intro h
    rw [h] at hlen
    simp at hlen
    omega
  have hmemd : (c, timesOf c (normalizePairs ps)) ∈ severeDict (normalizePairs ps) :=
    (mem_collect_condOnly (p := isSevere)
      (q := fun c => decide (90 ≤ sevOf c)) (fun _ => rfl)).2
      ⟨by simpa using hsev, hne, rfl⟩
  have hmemq : (c, timesOf c (normalizePairs ps)) ∈
      qualifying (severeDict (normalizePairs ps)) THRESHOLD_severe :=
    mem_qualifying.2 ⟨hmemd, hlen⟩
  have hqne : qualifying (severeDict (normalizePairs ps)) THRESHOLD_severe ≠ [] := by
    intro h
    rw [h] at hmemq
    exact absurd hmemq (List.not_mem_nil _)
  have hsome : severeStep (normalizePairs ps) ≠ none :=
    select_from_tier_ne_none hqne
  obtain ⟨w, hw⟩ : ∃ w, severeStep (normalizePairs ps) = some w := by
    rcases h : severeStep (normalizePairs ps) with _ | w
    · exact absurd h hsome
    · exact ⟨w, rfl⟩
  obtain ⟨ts, hts⟩ := select_from_tier_mem_top hw
  obtain ⟨hq, hmax⟩ := mem_topConditions.1 hts
  have hub : sevOf c ≤
      tierMaxSev (qualifying (severeDict (normalizePairs ps)) THRESHOLD_severe) :=
    tierMaxSev_ub hmemq
  have h90 : 90 ≤ sevOf w := by
    have hmax' : sevOf w =
        tierMaxSev (qualifying (severeDict (normalizePairs ps)) THRESHOLD_severe) := hmax
    omega
  have hwne : w ≠ "" := by
    intro h
    rw [h] at h90
    have h0 : sevOf "" = 0 := rfl
    omega
  have hsel : select_daily_condition ps = w := select_eq_severe hps hw hwne
  rw [hsel]
  exact ⟨h90, ⟨ts, hq⟩, hmax⟩

/-- C7: the selector returns the default ordinary condition sunny on the
empty input, and raises nothing (it is a total function). -/
theorem select_empty_returns_sunny : select_daily_condition [] = "sunny" := rfl

/-- C4: the precipitation tier boundary sits at exactly three hours: three
hours of rainy among three hours of cloudy select rainy, two hours of rainy
among four hours of cloudy fall through to cloudy. -/
theorem precipitation_threshold_boundary :
    select_daily_condition
      [(⟨8, 0⟩, "cloudy"), (⟨9, 0⟩, "rainy"), (⟨10, 0⟩, "rainy"),
       (⟨11, 0⟩, "rainy"), (⟨12, 0⟩, "cloudy"), (⟨13, 0⟩, "cloudy")] = "rainy" ∧
    select_daily_condition
      [(⟨8, 0⟩, "cloudy"), (⟨9, 0⟩, "cloudy"), (⟨10, 0⟩, "rainy"),
       (⟨11, 0⟩, "rainy"), (⟨12, 0⟩, "cloudy"), (⟨13, 0⟩, "cloudy")] = "cloudy" :=
  ⟨rfl, rfl⟩

/-- C2 counterexample: three rainy pairs spread over only two distinct hours
qualify at the precipitation tier (threshold 3), because the code counts
list entries, not distinct hours; the distinct-hours reading of the spec
would instead fall through to the daytime majority cloudy. -/
theorem occurrences_vs_distinct_hours_counterexample :
    select_daily_condition
      [(⟨8, 0⟩, "cloudy"), (⟨9, 0⟩, "cloudy"), (⟨10, 0⟩, "rainy"),
       (⟨10, 30⟩, "rainy"), (⟨11, 0⟩, "rainy"), (⟨12, 0⟩, "cloudy"),
       (⟨13, 0⟩, "cloudy")] = "rainy" ∧
    select_daily_condition_distinctHours
      [(⟨8, 0⟩, "cloudy"), (⟨9, 0⟩, "cloudy"), (⟨10, 0⟩, "rainy"),
       (⟨10, 30⟩, "rainy"), (⟨11, 0⟩, "rainy"), (⟨12, 0⟩, "cloudy"),
       (⟨13, 0⟩, "cloudy")] = "cloudy" ∧
    ((([(⟨8, 0⟩, "cloudy"), (⟨9, 0⟩, "cloudy"), (⟨10, 0⟩, "rainy"),
       ((⟨10, 30⟩ : PyTime), "rainy"), (⟨11, 0⟩, "rainy"), (⟨12, 0⟩, "cloudy"),
       (⟨13, 0⟩, "cloudy")].filter (fun pr => pr.2 = "rainy")).map
         (fun pr => pr.1.hour)).dedup.length = 2) ∧
    THRESHOLD_precipitation = 3 := by
  refine ⟨rfl, rfl, ?_, rfl⟩
  decide

/-- Helper: at a tier dictionary built from a condition-only predicate, a
label yields a qualifying entry exactly when the predicate holds of it and
its occurrence count (number of pairs) reaches the threshold. -/
theorem qualifying_collect_iff {p : PyTime × String → Bool}
    {q : String → Bool} (hpc : ∀ pr, p pr = q pr.2)
    {ps : List (PyTime × String)} {t : Nat} {c : String} (hth : 1 ≤ t) :
    (∃ e ∈ qualifying (collectP p ps) t, e.1 = c) ↔
      q c = true ∧ t ≤ occCount ps c := by
  constructor
  · rintro ⟨e, he, rfl⟩
    obtain ⟨hed, hlen⟩ := mem_qualifying.1 he
    obtain ⟨hpcc, hne, hval⟩ := (mem_collect_condOnly hpc).1 hed
    rw [hval] at hlen
    exact ⟨hpcc, hlen⟩
  · rintro ⟨hpcc, hocc⟩
    have hne : timesOf c ps ≠ [] := by
      intro h
      have h0 : occCount ps c = 0 := by
        unfold occCount
        rw [h]
        rfl
      omega
    exact ⟨(c, timesOf c ps),
      mem_qualifying.2 ⟨(mem_collect_condOnly hpc).2 ⟨hpcc, hne, rfl⟩, hocc⟩, rfl⟩

/-- C2 amended: at every severity tier of select_daily_condition, a
condition qualifies for selection exactly when it belongs to the tier and
the number of its (timestamp, condition) pairs — counting pairs that share
an hour separately — reaches the tier threshold. -/
theorem tier_qualification_iff_occurrences (ps : List (PyTime × String)) (c : String) :
    ((∃ e ∈ qualifying (severeDict (normalizePairs ps)) THRESHOLD_severe, e.1 = c) ↔
      90 ≤ sevOf c ∧ THRESHOLD_severe ≤ occCount (normalizePairs ps) c) ∧
    ((∃ e ∈ qualifying (precipDict (normalizePairs ps)) THRESHOLD_precipitation, e.1 = c) ↔
      (55 ≤ sevOf c ∧ sevOf c < 90) ∧
        THRESHOLD_precipitation ≤ occCount (normalizePairs ps) c) ∧
    ((∃ e ∈ qualifying (visDict (normalizePairs ps)) THRESHOLD_visibility, e.1 = c) ↔
      (37 ≤ sevOf c ∧ sevOf c < 55) ∧
        THRESHOLD_visibility ≤ occCount (normalizePairs ps) c) := by
  refine ⟨?_, ?_, ?_⟩
  · exact (qualifying_collect_iff (p := isSevere)
      (q := fun c => decide (90 ≤ sevOf c)) (t := THRESHOLD_severe)
      (fun _ => rfl) (by decide)).trans (by simp)
  · exact (qualifying_collect_iff (p := isPrecip)
      (q := fun c => decide (55 ≤ sevOf c) && decide (sevOf c < 90))
      (t := THRESHOLD_precipitation) (fun _ => rfl) (by decide)).trans (by simp)
  · exact (qualifying_collect_iff (p := isVis)
      (q := fun c => decide (37 ≤ sevOf c) && decide (sevOf c < 55))
      (t := THRESHOLD_visibility) (fun _ => rfl) (by decide)).trans (by simp)

/-- C8: a label absent from the severity table has severity 0, is never the
winner of any of the three severity tiers, and can still be returned through
the daytime fallback, as the concrete one-pair example shows. -/
theorem unknown_label_ordinary :
    (∀ (ps : List (PyTime × String)) (c : String),
      WEATHER_CONDITION_SEVERITY.find? (fun e => e.1 = c) = none →
        sevOf c = 0 ∧
        severeStep (normalizePairs ps) ≠ some c ∧
        precipStep (normalizePairs ps) ≠ some c ∧
        visStep (normalizePairs ps) ≠ some c) ∧
    select_daily_condition [(⟨8, 0⟩, "weird")] = "weird" := by
  constructor
  · intro ps c hfind
    have hzero : sevOf c = 0 := by
      unfold sevOf
      rw [hfind]
      rfl
    refine ⟨hzero, ?_, ?_, ?_⟩
    · intro h
      obtain ⟨ts, hts⟩ := select_from_tier_mem_top h
      obtain ⟨hq, -⟩ := mem_topConditions.1 hts
      obtain ⟨hd, -⟩ := mem_qualifying.1 hq
      obtain ⟨hpcc, -, -⟩ :=
        (mem_collect_condOnly (p := isSevere)
          (q := fun c => decide (90 ≤ sevOf c)) (fun _ => rfl)).1 hd
      rw [hzero] at hpcc
      exact absurd hpcc (by decide)
    · intro h
      obtain ⟨ts, hts⟩ := select_from_tier_mem_top h
      obtain ⟨hq, -⟩ := mem_topConditions.1 hts
      obtain ⟨hd, -⟩ := mem_qualifying.1 hq
      obtain ⟨hpcc, -, -⟩ :=
        (mem_collect_condOnly (p := isPrecip)
          (q := fun c => decide (55 ≤ sevOf c) && decide (sevOf c < 90))
          (fun _ => rfl)).1 hd
      rw [hzero] at hpcc
      exact absurd hpcc (by decide)
    · intro h
      obtain ⟨ts, hts⟩ := select_from_tier_mem_top h
      obtain ⟨hq, -⟩ := mem_topConditions.1 hts
      obtain ⟨hd, -⟩ := mem_qualifying.1 hq
      obtain ⟨hpcc, -, -⟩ :=
        (mem_collect_condOnly (p := isVis)
          (q := fun c => decide (37 ≤ sevOf c) && decide (sevOf c < 55))
          (fun _ => rfl)).1 hd
      rw [hzero] at hpcc
      exact absurd hpcc (by decide)
  · rfl

/-! ### Claim theorems: daily aggregation -/

/-- The precipitation reduction is absent exactly on all-absent input and
otherwise the exact sum of the present values. -/
theorem sumPresent_spec (vs : List RawVal) :
    (sumPresent vs = none ↔ presentVals vs = []) ∧
    (presentVals vs ≠ [] → sumPresent vs = some (presentVals vs).sum) := by
  unfold sumPresent
  rcases hpv : presentVals vs with _ | ⟨x, xs⟩
  · simp
  · constructor
    · simp
    · intro _
      show some ((x :: xs).foldl (· + ·) 0) = some (x :: xs).sum
      rw [foldl_add_eq_sum, zero_add]

/-- C9: for every day group the daily precipitation is absent exactly when
every hourly contribution is absent, and otherwise equals the exact sum of
the present values; concretely, seven hours at 5 among 24 otherwise dry
hours give exactly 35. -/
theorem daily_precipitation_is_sum_of_present :
    (∀ (rs : List HourlyRecord), ∀ g ∈ groupByDay rs,
      ((dailyRecord g).precipitation_total = none ↔
        presentVals (g.map (fun r => r.precipitation_amount)) = []) ∧
      (presentVals (g.map (fun r => r.precipitation_amount)) ≠ [] →
        (dailyRecord g).precipitation_total =
          some (presentVals (g.map (fun r => r.precipitation_amount))).sum)) ∧
    (aggregate ((List.range 24).map (fun h =>
      { day := 0, time := ⟨h, 0⟩, condition := "cloudy",
        temperature := RawVal.val 15,
        precipitation_amount := RawVal.val (if 6 ≤ h ∧ h ≤ 12 then 5 else 0)
        : HourlyRecord }))).map (fun d => d.precipitation_total) =
      [some 35] := by
  constructor
  · intro rs g _
    exact sumPresent_spec (g.map (fun r => r.precipitation_amount))
  · show [sumPresent ((((List.range 24).map (fun h =>
      ({ day := 0, time := ⟨h, 0⟩, condition := "cloudy",
         temperature := RawVal.val 15,
         precipitation_amount := RawVal.val (if 6 ≤ h ∧ h ≤ 12 then 5 else 0) }
        : HourlyRecord)))).map (fun r => r.precipitation_amount))] = [some 35]
    have hpv : presentVals ((((List.range 24).map (fun h =>
      ({ day := 0, time := ⟨h, 0⟩, condition := "cloudy",
         temperature := RawVal.val 15,
         precipitation_amount := RawVal.val (if 6 ≤ h ∧ h ≤ 12 then 5 else 0) }
        : HourlyRecord)))).map (fun r => r.precipitation_amount)) =
        [(0 : ℚ), 0, 0, 0, 0, 0, 5, 5, 5, 5, 5, 5, 5, 0, 0, 0, 0, 0, 0, 0, 0, 0,
         0, 0] := rfl
    rw [show ∀ o : Option ℚ, ([o] = [some 35]) = (o = some 35) from
      fun o => by simp]
    rw [(sumPresent_spec _).2 (by rw [hpv]; exact List.cons_ne_nil _ _), hpv]
    norm_num [List.sum_cons, List.sum_nil]

/-- C10: every daily record has temperature_high at least temperature_low
whenever both are present; high is the maximum and low the minimum of the
present hourly temperatures of the group, and both are absent when none are
present. -/
theorem daily_temperature_high_ge_low :
    (∀ (rs : List HourlyRecord) (d : DailyRecord), d ∈ aggregate rs →
      ∀ h l, d.temperature_high = some h → d.temperature_low = some l → l ≤ h) ∧
    (∀ g : List HourlyRecord,
      (presentVals (g.map (fun r => r.temperature)) = [] →
        (dailyRecord g).temperature_high = none ∧
        (dailyRecord g).temperature_low = none) ∧
      (presentVals (g.map (fun r => r.temperature)) ≠ [] →
        ∃ h l, (dailyRecord g).temperature_high = some h ∧
          (dailyRecord g).temperature_low = some l ∧
          h ∈ presentVals (g.map (fun r => r.temperature)) ∧
          l ∈ presentVals (g.map (fun r => r.temperature)) ∧
          ∀ x ∈ presentVals (g.map (fun r => r.temperature)), l ≤ x ∧ x ≤ h)) := by
  have hmain : ∀ g : List HourlyRecord,
      (presentVals (g.map (fun r => r.temperature)) = [] →
        (dailyRecord g).temperature_high = none ∧
        (dailyRecord g).temperature_low = none) ∧
      (presentVals (g.map (fun r => r.temperature)) ≠ [] →
        ∃ h l, (dailyRecord g).temperature_high = some h ∧
          (dailyRecord g).temperature_low = some l ∧
          h ∈ presentVals (g.map (fun r => r.temperature)) ∧
          l ∈ presentVals (g.map (fun r => r.temperature)) ∧
          ∀ x ∈ presentVals (g.map (fun r => r.temperature)), l ≤ x ∧ x ≤ h) := by
    intro g
    constructor
    · intro hpv
      constructor
      · show maxPresent (g.map (fun r => r.temperature)) = none
        unfold maxPresent
        rw [hpv]
      · show minPresent (g.map (fun r => r.temperature)) = none
        unfold minPresent
        rw [hpv]
    · intro hpv
      rcases hx : presentVals (g.map (fun r => r.temperature)) with _ | ⟨x, xs⟩
      · exact absurd hx hpv
      · refine ⟨xs.foldl max x, xs.foldl min x, ?_, ?_, ?_, ?_, ?_⟩
        · show maxPresent (g.map (fun r => r.temperature)) = _
          unfold maxPresent
          rw [hx]
        · show minPresent (g.map (fun r => r.temperature)) = _
          unfold minPresent
          rw [hx]
        · rw [hx]
          rcases foldl_max_eq_or_mem xs x with h | h
          · rw [h]; exact List.mem_cons_self _ _
          · exact List.mem_cons_of_mem _ h
        · rw [hx]
          rcases foldl_min_eq_or_mem xs x with h | h
          · rw [h]; exact List.mem_cons_self _ _
          · exact List.mem_cons_of_mem _ h
        · intro y hy
          rw [hx] at hy
          rcases List.mem_cons.1 hy with rfl | hy
          · exact ⟨foldl_min_le xs y, le_foldl_max xs y⟩
          · exact ⟨foldl_min_le_mem xs x y hy, mem_le_foldl_max xs x y hy⟩
  refine ⟨?_, hmain⟩
  intro rs d hd h l hh hl
  obtain ⟨g, -, rfl⟩ := List.mem_map.1 hd
  rcases hx : presentVals (g.map (fun r => r.temperature)) with _ | ⟨x, xs⟩
  · obtain ⟨hnone, -⟩ := (hmain g).1 hx
    rw [hnone] at hh
    exact Option.noConfusion hh
  · have hne : presentVals (g.map (fun r => r.temperature)) ≠ [] := by
      rw [hx]
      exact List.cons_ne_nil _ _
    obtain ⟨h', l', hh', hl', hmem', -, hbound⟩ := (hmain g).2 hne
    rw [hh'] at hh
    rw [hl'] at hl
    obtain rfl : h' = h := Option.some.inj hh
    obtain rfl : l' = l := Option.some.inj hl
    exact (hbound h' hmem').1

/-! ### Characterization of the insertion-ordered counter -/

theorem countsInOrder_append_singleton (xs : List String) (c : String) :
    countsInOrder (xs ++ [c]) =
      if (countsInOrder xs).any (fun e => e.1 = c) then
        (countsInOrder xs).map (fun e => if e.1 = c then (e.1, e.2 + 1) else e)
      else countsInOrder xs ++ [(c, 1)] := by
  unfold countsInOrder
  rw [List.foldl_append]
  rfl

/-- The counter holds exactly one entry per occurring label, carrying its
occurrence count. -/
theorem mem_countsInOrder :
    ∀ (xs : List String) (e : String × Nat),
      e ∈ countsInOrder xs ↔ e.1 ∈ xs ∧ e.2 = xs.count e.1 := by
  intro xs
  induction xs using List.reverseRecOn with
  | nil =>
    intro e
    simp [countsInOrder]
  | append_singleton l c ih =>
    intro e
    rw [countsInOrder_append_singleton]
    by_cases hany : (countsInOrder l).any (fun e => e.1 = c) = true
    · rw [if_pos hany]
      have hcl : c ∈ l := by
        rcases List.any_eq_true.1 hany with ⟨a, ha, hkey⟩
        have hch := (ih a).1 ha
        have hkey' : a.1 = c := by simpa using hkey
        rw [hkey'] at hch
        exact hch.1
      constructor
      · intro hmem
        rcases List.mem_map.1 hmem with ⟨a, ha, hfa⟩
        obtain ⟨hain, haval⟩ := (ih a).1 ha
        by_cases hkey : a.1 = c
        · rw [if_pos (by simpa using hkey)] at hfa
          subst hfa
          show a.1 ∈ l ++ [c] ∧ a.2 + 1 = (l ++ [c]).count a.1
          rw [hkey] at hain haval ⊢
          refine ⟨by simp, ?_⟩
          rw [List.count_append, haval]
          simp
        · rw [if_neg (by simpa using hkey)] at hfa
          subst hfa
          refine ⟨List.mem_append.2 (Or.inl hain), ?_⟩
          rw [List.count_append, haval]
          simp [hkey]
      · rintro ⟨hin, hval⟩
        by_cases hkey : e.1 = c
        · rw [hkey] at hval
          rw [List.count_append] at hval
          have hc1 : ([c].count c) = 1 := by simp
          rcases List.any_eq_true.1 hany with ⟨a, ha, hk⟩
          have hk' : a.1 = c := by simpa using hk
          have haval := ((ih a).1 ha).2
          refine List.mem_map.2 ⟨a, ha, ?_⟩
          rw [if_pos (by simpa using hk')]
          apply Prod.ext
          · show a.1 = e.1
            rw [hk', hkey]
          · show a.2 + 1 = e.2
            rw [haval, hk', hval, hc1]
        · have hin' : e.1 ∈ l := by
            rcases List.mem_append.1 hin with h | h
            · exact h
            · exact absurd (by simpa using h) hkey
          have hval' : e.2 = l.count e.1 := by
            rw [List.count_append] at hval
            rw [hval]
            simp [hkey]
          refine List.mem_map.2 ⟨e, (ih e).2 ⟨hin', hval'⟩, ?_⟩
          rw [if_neg (by simpa using hkey)]
    · rw [if_neg hany]
      have hnc : c ∉ l := by
        intro hc
        have hm : (c, l.count c) ∈ countsInOrder l :=
          (ih (c, l.count c)).2 ⟨hc, rfl⟩
        exact hany (List.any_eq_true.2 ⟨_, hm, by simp⟩)
      constructor
      · intro hmem
        rcases List.mem_append.1 hmem with hmem | hmem
        · obtain ⟨hain, haval⟩ := (ih e).1 hmem
          have hkey : e.1 ≠ c := fun h => hnc (h ▸ hain)
          refine ⟨List.mem_append.2 (Or.inl hain), ?_⟩
          rw [List.count_append, haval]
          simp [hkey]
        · have he : e = (c, 1) := by simpa using hmem
          subst he
          refine ⟨by simp, ?_⟩
          show 1 = (l ++ [c]).count c
          rw [List.count_append, List.count_eq_zero_of_not_mem hnc]
          simp
      · rintro ⟨hin, hval⟩
        by_cases hkey : e.1 = c
        · rw [hkey] at hval
          rw [List.count_append, List.count_eq_zero_of_not_mem hnc] at hval
          have hv1 : e.2 = 1 := by
            rw [hval]
            simp
          have he : e = (c, 1) := Prod.ext hkey hv1
          exact List.mem_append.2 (Or.inr (by simp [he]))
        · have hin' : e.1 ∈ l := by
            rcases List.mem_append.1 hin with h | h
            · exact h
            · exact absurd (by simpa using h) hkey
          have hval' : e.2 = l.count e.1 := by
            rw [List.count_append] at hval
            rw [hval]
            simp [hkey]
          exact List.mem_append.2 (Or.inl ((ih e).2 ⟨hin', hval'⟩))

/-- The counter lists its entries in first-encounter order of their
labels. -/
theorem countsInOrder_pairwise (xs : List String) :
    List.Pairwise (fun e f : String × Nat =>
      xs.indexOf e.1 < xs.indexOf f.1) (countsInOrder xs) := by
  induction xs using List.reverseRecOn with
  | nil => simp [countsInOrder]
  | append_singleton l c ih =>
    rw [countsInOrder_append_singleton]
    by_cases hany : (countsInOrder l).any (fun e => e.1 = c) = true
    · rw [if_pos hany]
      refine List.pairwise_map.2 ?_
      refine ih.imp_of_mem ?_
      intro a b ha hb hab
      have hka : (if a.1 = c then (a.1, a.2 + 1) else a).1 = a.1 := by
        by_cases h : a.1 = c <;> simp [h]
      have hkb : (if b.1 = c then (b.1, b.2 + 1) else b).1 = b.1 := by
        by_cases h : b.1 = c <;> simp [h]
      rw [hka, hkb]
      have hain : a.1 ∈ l := ((mem_countsInOrder l a).1 ha).1
      have hbin : b.1 ∈ l := ((mem_countsInOrder l b).1 hb).1
      rw [List.indexOf_append_of_mem hain, List.indexOf_append_of_mem hbin]
      exact hab
    · rw [if_neg hany]
      have hnc : c ∉ l := by
        intro hc
        have hm : (c, l.count c) ∈ countsInOrder l :=
          (mem_countsInOrder l (c, l.count c)).2 ⟨hc, rfl⟩
        exact hany (List.any_eq_true.2 ⟨_, hm, by simp⟩)
      refine List.pairwise_append.2 ⟨?_, by simp, ?_⟩
      · refine ih.imp_of_mem ?_
        intro a b ha hb hab
        have hain : a.1 ∈ l := ((mem_countsInOrder l a).1 ha).1
        have hbin : b.1 ∈ l := ((mem_countsInOrder l b).1 hb).1
        rw [List.indexOf_append_of_mem hain, List.indexOf_append_of_mem hbin]
        exact hab
      · intro a ha b hb
        have hbc : b = (c, 1) := by simpa using hb
        have hain : a.1 ∈ l := ((mem_countsInOrder l a).1 ha).1
        rw [hbc]
        show (l ++ [c]).indexOf a.1 < (l ++ [c]).indexOf c
        rw [List.indexOf_append_of_mem hain,
          List.indexOf_append_of_not_mem hnc]
        have h1 : l.indexOf a.1 < l.length := List.indexOf_lt_length.2 hain
        have h2 : [c].indexOf c = 0 := List.indexOf_cons_self c []
        omega

/-- The seed of the first-max fold is below the result. -/
theorem foldl_pick_ge :
    ∀ (l : List (String × Nat)) (e : String × Nat),
      e.2 ≤ (l.foldl (fun b q => if b.2 < q.2 then q else b) e).2 := by
  intro l
  induction l with
  | nil => intro e; exact le_refl _
  | cons q l ih =>
    intro e
    show e.2 ≤ (l.foldl _ (if e.2 < q.2 then q else e)).2
    by_cases hlt : e.2 < q.2
    · rw [if_pos hlt]
      exact le_trans (le_of_lt hlt) (ih q)
    · rw [if_neg hlt]
      exact ih e

/-- The first-max fold picks the first element attaining the maximal count:
everything before it is strictly smaller, everything after it no larger. -/
theorem foldl_first_max :
    ∀ (l : List (String × Nat)) (e : String × Nat),
      ∃ l1 l2,
        e :: l = l1 ++ (l.foldl (fun b q => if b.2 < q.2 then q else b) e) :: l2 ∧
        (∀ x ∈ l1, x.2 < (l.foldl (fun b q => if b.2 < q.2 then q else b) e).2) ∧
        (∀ x ∈ l2, x.2 ≤ (l.foldl (fun b q => if b.2 < q.2 then q else b) e).2) := by
  intro l
  induction l with
  | nil =>
    intro e
    exact ⟨[], [], rfl, by simp, by simp⟩
  | cons q l ih =>
    intro e
    by_cases hlt : e.2 < q.2
    · have hfold : List.foldl (fun b r => if b.2 < r.2 then r else b) e (q :: l) =
          List.foldl (fun b r => if b.2 < r.2 then r else b) q l := by
        rw [List.foldl_cons, if_pos hlt]
      rw [hfold]
      obtain ⟨l1, l2, hdec, hl1, hl2⟩ := ih q
      refine ⟨e :: l1, l2, ?_, ?_, hl2⟩
      · rw [List.cons_append, ← hdec]
      · intro x hx
        rcases List.mem_cons.1 hx with rfl | hx
        · exact lt_of_lt_of_le hlt (foldl_pick_ge l q)
        · exact hl1 x hx
    · have hfold : List.foldl (fun b r => if b.2 < r.2 then r else b) e (q :: l) =
          List.foldl (fun b r => if b.2 < r.2 then r else b) e l := by
        rw [List.foldl_cons, if_neg hlt]
      rw [hfold]
      obtain ⟨l1, l2, hdec, hl1, hl2⟩ := ih e
      rcases l1 with _ | ⟨y, l1p⟩
      · rw [List.nil_append] at hdec
        obtain ⟨he, hl⟩ := List.cons_eq_cons.1 hdec
        refine ⟨[], q :: l2, ?_, by simp, ?_⟩
        · rw [List.nil_append, ← hl, ← he]
        · intro x hx
          rcases List.mem_cons.1 hx with rfl | hx
          · rw [← he]
            omega
          · exact hl2 x hx
      · rw [List.cons_append] at hdec
        obtain ⟨he, hl⟩ := List.cons_eq_cons.1 hdec
        refine ⟨e :: q :: l1p, l2, ?_, ?_, hl2⟩
        · rw [List.cons_append, List.cons_append, ← hl]
        · intro x hx
          have hy : y.2 < (l.foldl (fun b r => if b.2 < r.2 then r else b) e).2 :=
            hl1 y (List.mem_cons_self _ _)
          rw [← he] at hy
          rcases List.mem_cons.1 hx with rfl | hx
          · exact hy
          rcases List.mem_cons.1 hx with rfl | hx
          · omega
          · exact hl1 x (List.mem_cons_of_mem _ hx)

/-- The STEP 5 selection returns a label of maximal count that is the
first-encountered among the labels attaining that count. -/
theorem firstMostCommon_spec (xs : List String) (c : String)
    (h : firstMostCommon xs = some c) :
    c ∈ xs ∧ (∀ d ∈ xs, xs.count d ≤ xs.count c) ∧
      (∀ d ∈ xs, xs.count d = xs.count c → xs.indexOf c ≤ xs.indexOf d) := by
  unfold firstMostCommon at h
  rcases hco : countsInOrder xs with _ | ⟨e, rest⟩
  · rw [hco] at h
    exact Option.noConfusion h
  · rw [hco] at h
    have hc : (rest.foldl (fun best q => if best.2 < q.2 then q else best) e).1 = c :=
      Option.some.inj h
    obtain ⟨l1, l2, hdec, hl1, hl2⟩ := foldl_first_max rest e
    set r := rest.foldl (fun best q => if best.2 < q.2 then q else best) e with hr
    have hrmem : r ∈ countsInOrder xs := by
      rw [hco, hdec]
      exact List.mem_append.2 (Or.inr (List.mem_cons_self _ _))
    obtain ⟨hcin, hcount⟩ := (mem_countsInOrder xs r).1 hrmem
    have hpw := countsInOrder_pairwise xs
    rw [hco, hdec] at hpw
    refine ⟨hc ▸ hcin, ?_, ?_⟩
    · intro d hd
      have hdm : (d, xs.count d) ∈ countsInOrder xs :=
        (mem_countsInOrder xs (d, xs.count d)).2 ⟨hd, rfl⟩
      rw [hco, hdec] at hdm
      have hrc : r.2 = xs.count c := by
        rw [hcount, hc]
      rcases List.mem_append.1 hdm with h1 | h2
      · have := hl1 _ h1
        simp only at this
        omega
      · rcases List.mem_cons.1 h2 with heq | h2
        · have : xs.count d = r.2 := congrArg Prod.snd heq
          omega
        · have := hl2 _ h2
          simp only at this
          omega
    · intro d hd hcnt
      have hdm : (d, xs.count d) ∈ countsInOrder xs :=
        (mem_countsInOrder xs (d, xs.count d)).2 ⟨hd, rfl⟩
      rw [hco, hdec] at hdm
      have hrc : r.2 = xs.count c := by
        rw [hcount, hc]
      rcases List.mem_append.1 hdm with h1 | h2
      · have := hl1 _ h1
        simp only at this
        omega
      · rcases List.mem_cons.1 h2 with heq | h2
        · have hdc : d = r.1 := congrArg Prod.fst heq
          rw [hc] at hdc
          rw [hdc]
        · have hrel := List.rel_of_pairwise_cons (List.pairwise_append.1 hpw).2.1 h2
          simp only at hrel
          rw [hc] at hrel
          exact le_of_lt hrel

/-! ### The time-weighted tie-break -/

theorem twLt_false_iff {a b : String × List PyTime} :
    twLt a b = false ↔
      timeWeightNum b.2 * a.2.length ≤ timeWeightNum a.2 * b.2.length := by
  unfold twLt
  simp [not_lt]

theorem tw_le_trans {x y z : String × List PyTime} (hy : y.2 ≠ [])
    (h1 : timeWeightNum x.2 * y.2.length ≤ timeWeightNum y.2 * x.2.length)
    (h2 : timeWeightNum y.2 * z.2.length ≤ timeWeightNum z.2 * y.2.length) :
    timeWeightNum x.2 * z.2.length ≤ timeWeightNum z.2 * x.2.length := by
  have hly : 0 < y.2.length := List.length_pos.2 hy
  have h3 : timeWeightNum x.2 * z.2.length * y.2.length ≤
      timeWeightNum z.2 * x.2.length * y.2.length := by nlinarith
  exact Nat.le_of_mul_le_mul_right h3 hly

/-- The Python min over a list of entries with nonempty time lists returns an
entry whose mean noon distance is minimal (stated by cross
multiplication). -/
theorem minByTW_min :
    ∀ (rest : List (String × List PyTime)) (e : String × List PyTime),
      e.2 ≠ [] → (∀ x ∈ rest, x.2 ≠ []) →
      ∀ x ∈ e :: rest,
        timeWeightNum (minByTW e rest).2 * x.2.length ≤
          timeWeightNum x.2 * (minByTW e rest).2.length := by
  intro rest
  induction rest with
  | nil =>
    intro e _ _ x hx
    have hxe : x = e := by simpa using hx
    subst hxe
    exact le_refl _
  | cons y rest ih =>
    intro e he hrest x hx
    have hy : y.2 ≠ [] := hrest y (List.mem_cons_self _ _)
    have hrest' : ∀ x ∈ rest, x.2 ≠ [] :=
      fun x hx => hrest x (List.mem_cons_of_mem _ hx)
    have hfold : minByTW e (y :: rest) = minByTW (if twLt y e then y else e) rest :=
      rfl
    rw [hfold]
    by_cases hlt : twLt y e = true
    · rw [if_pos hlt]
      have hmin := ih y hy hrest'
      rcases List.mem_cons.1 hx with rfl | hx2
      · have h1 := hmin y (List.mem_cons_self _ _)
        have h2 : timeWeightNum y.2 * x.2.length ≤
            timeWeightNum x.2 * y.2.length := by
          have hstrict : timeWeightNum y.2 * x.2.length <
              timeWeightNum x.2 * y.2.length := by
            simpa [twLt] using hlt
          exact le_of_lt hstrict
        exact tw_le_trans hy h1 h2
      · rcases List.mem_cons.1 hx2 with rfl | hx3
        · exact hmin x (List.mem_cons_self _ _)
        · exact hmin x (List.mem_cons_of_mem _ hx3)
    · rw [if_neg hlt]
      have hmin := ih e he hrest'
      rcases List.mem_cons.1 hx with rfl | hx2
      · exact hmin x (List.mem_cons_self _ _)
      · rcases List.mem_cons.1 hx2 with rfl | hx3
        · have h1 := hmin e (List.mem_cons_self _ _)
          have hlt' : twLt x e = false := Bool.eq_false_iff.mpr hlt
          have h2 : timeWeightNum e.2 * x.2.length ≤
              timeWeightNum x.2 * e.2.length := twLt_false_iff.1 hlt'
          exact tw_le_trans he h1 h2
        · exact hmin x (List.mem_cons_of_mem _ hx3)

/-- When a tier whose entries all carry nonempty time lists selects a
winner, the winner belongs to the tied top conditions and minimizes the mean
noon distance among them. -/
theorem select_from_tier_min_spec {d : CondDict} {th : Nat} {w : String}
    (hd : ∀ e ∈ d, e.2 ≠ []) (h : select_from_tier d th = some w) :
    ∃ ts, (w, ts) ∈ topConditions (qualifying d th) ∧
      ∀ e ∈ topConditions (qualifying d th),
        timeWeightNum ts * e.2.length ≤ timeWeightNum e.2 * ts.length := by
  unfold select_from_tier at h
  by_cases hde : d.isEmpty = true
  · rw [if_pos hde] at h
    exact Option.noConfusion h
  · rw [if_neg hde] at h
    by_cases hqe : (qualifying d th).isEmpty = true
    · rw [if_pos hqe] at h
      exact Option.noConfusion h
    · rw [if_neg hqe] at h
      have htopne : ∀ e ∈ topConditions (qualifying d th), e.2 ≠ [] := by
        intro e he
        exact hd e (mem_qualifying.1 (mem_topConditions.1 he).1).1
      rcases htc : topConditions (qualifying d th) with _ | ⟨e, rest⟩
      · rw [htc] at h
        exact Option.noConfusion h
      · rcases rest with _ | ⟨f, rest2⟩
        · rw [htc] at h
          have hw : e.1 = w := Option.some.inj h
          refine ⟨e.2, by rw [← hw]; simp, ?_⟩
          intro x hx
          have hxe : x = e := by simpa using hx
          subst hxe
          exact le_refl _
        · rw [htc] at h
          have hw : (minByTW e (f :: rest2)).1 = w := Option.some.inj h
          have hene : e.2 ≠ [] := htopne e (by rw [htc]; exact List.mem_cons_self _ _)
          have hfne : ∀ x ∈ f :: rest2, x.2 ≠ [] := by
            intro x hx
            exact htopne x (by rw [htc]; exact List.mem_cons_of_mem _ hx)
          refine ⟨(minByTW e (f :: rest2)).2, ?_, ?_⟩
          · rw [← hw]
            exact minByTW_mem (f :: rest2) e
          · intro x hx
            exact minByTW_min (f :: rest2) e hene hfne x hx

/-! ### STEP 4 structure -/

theorem timesOfP_ne_nil_iff {p : PyTime × String → Bool} {c : String}
    {ps : List (PyTime × String)} :
    timesOfP p c ps ≠ [] ↔ ∃ pr ∈ ps, p pr = true ∧ pr.2 = c := by
  constructor
  · intro h
    obtain ⟨t, ht⟩ := List.exists_mem_of_ne_nil _ h
    obtain ⟨pr, hpr, hfst⟩ := List.mem_map.1 ht
    have hq := List.mem_filter.1 hpr
    have hq2 : p pr = true ∧ pr.2 = c := by simpa using hq.2
    exact ⟨pr, hq.1, hq2.1, hq2.2⟩
  · rintro ⟨pr, hpr, hp, hc2⟩
    intro hnil
    have hm : pr.1 ∈ timesOfP p c ps :=
      List.mem_map.2 ⟨pr, List.mem_filter.2 ⟨hpr, by simp [hp, hc2]⟩, rfl⟩
    rw [hnil] at hm
    exact absurd hm (List.not_mem_nil _)

theorem collect_entry_ne_nil {p : PyTime × String → Bool}
    {ps : List (PyTime × String)} : ∀ e ∈ collectP p ps, e.2 ≠ [] := by
  intro e he
  have h := (mem_collectP p ps e).1 he
  rw [h.2]
  exact h.1

/-- A label of the counter of a nonempty list. -/
theorem countsInOrder_ne_nil {xs : List String} (h : xs ≠ []) :
    countsInOrder xs ≠ [] := by
  obtain ⟨x, hx⟩ := List.exists_mem_of_ne_nil xs h
  intro hnil
  have hm : (x, xs.count x) ∈ countsInOrder xs :=
    (mem_countsInOrder xs (x, xs.count x)).2 ⟨hx, rfl⟩
  rw [hnil] at hm
  exact absurd hm (List.not_mem_nil _)

theorem maxCount_ub {l : List (String × Nat)} {e : String × Nat} (he : e ∈ l) :
    e.2 ≤ maxCount l :=
  mem_le_foldl_max _ 0 _ (List.mem_map.2 ⟨e, he, rfl⟩)

theorem maxCount_attained {l : List (String × Nat)} (hl : l ≠ [])
    (hpos : ∀ e ∈ l, 1 ≤ e.2) : ∃ e ∈ l, e.2 = maxCount l := by
  rcases foldl_max_eq_or_mem (l.map Prod.snd) 0 with h | h
  · obtain ⟨e, he⟩ := List.exists_mem_of_ne_nil l hl
    have h1 : e.2 ≤ maxCount l := maxCount_ub he
    have h2 : maxCount l = 0 := h
    have h3 := hpos e he
    omega
  · obtain ⟨e, he, hev⟩ := List.mem_map.1 h
    exact ⟨e, he, hev⟩

/-- Membership in most_common of STEP 4: the labels of the daytime window
whose count attains the maximal count. -/
theorem mem_mostCommonList {n : List (PyTime × String)} {c : String} :
    c ∈ mostCommonList n ↔
      c ∈ daytimeConds n ∧
        (daytimeConds n).count c =
          maxCount (countsInOrder (daytimeConds n)) := by
  unfold mostCommonList
  constructor
  · intro h
    obtain ⟨e, he, hfst⟩ := List.mem_map.1 h
    obtain ⟨hec, hev⟩ := List.mem_filter.1 he
    obtain ⟨hin, hcnt⟩ := (mem_countsInOrder _ e).1 hec
    subst hfst
    refine ⟨hin, ?_⟩
    rw [← hcnt]
    simpa using hev
  · rintro ⟨hin, hcnt⟩
    refine List.mem_map.2 ⟨(c, (daytimeConds n).count c), ?_, rfl⟩
    refine List.mem_filter.2 ⟨(mem_countsInOrder _ _).2 ⟨hin, rfl⟩, ?_⟩
    simpa using hcnt

theorem mostCommonList_ne_nil {n : List (PyTime × String)}
    (h : daytimeConds n ≠ []) : mostCommonList n ≠ [] := by
  have hcne := countsInOrder_ne_nil h
  have hpos : ∀ e ∈ countsInOrder (daytimeConds n), 1 ≤ e.2 := by
    intro e he
    obtain ⟨hin, hcnt⟩ := (mem_countsInOrder _ e).1 he
    rw [hcnt]
    exact List.count_pos_iff.2 hin
  obtain ⟨e, he, hev⟩ := maxCount_attained hcne hpos
  obtain ⟨hin, hcnt⟩ := (mem_countsInOrder _ e).1 he
  intro hnil
  have hm : e.1 ∈ mostCommonList n :=
    mem_mostCommonList.2 ⟨hin, by rw [← hcnt, hev]⟩
  rw [hnil] at hm
  exact absurd hm (List.not_mem_nil _)

theorem mem_daytimeConds {n : List (PyTime × String)} {c : String} :
    c ∈ daytimeConds n ↔ ∃ pr ∈ n, daytimeOk pr.1 = true ∧ pr.2 = c := by
  unfold daytimeConds
  constructor
  · intro h
    obtain ⟨pr, hpr, hfst⟩ := List.mem_map.1 h
    have hf := List.mem_filter.1 hpr
    exact ⟨pr, hf.1, hf.2, hfst⟩
  · rintro ⟨pr, hpr, hok, hc⟩
    exact List.mem_map.2 ⟨pr, List.mem_filter.2 ⟨hpr, hok⟩, hc⟩

theorem condTimes_ne_nil {n : List (PyTime × String)}
    (h : daytimeConds n ≠ []) : condTimes n ≠ [] := by
  obtain ⟨c, hc⟩ := List.exists_mem_of_ne_nil _ (mostCommonList_ne_nil h)
  have hin : c ∈ daytimeConds n := (mem_mostCommonList.1 hc).1
  obtain ⟨pr, hpr, hok, hprc⟩ := mem_daytimeConds.1 hin
  have hp : ((mostCommonList n).contains pr.2 && daytimeOk pr.1) = true := by
    rw [Bool.and_eq_true]
    refine ⟨?_, hok⟩
    rw [List.contains_eq_any_beq]
    refine List.any_eq_true.2 ⟨c, hc, ?_⟩
    simp [hprc]
  have hne : timesOfP
      (fun pr => (mostCommonList n).contains pr.2 && daytimeOk pr.1) c n ≠ [] :=
    timesOfP_ne_nil_iff.2 ⟨pr, hpr, hp, hprc⟩
  intro hnil
  have hm : (c, timesOfP
      (fun pr => (mostCommonList n).contains pr.2 && daytimeOk pr.1) c n) ∈
      condTimes n :=
    (mem_collectP _ n _).2 ⟨hne, rfl⟩
  rw [hnil] at hm
  exact absurd hm (List.not_mem_nil _)

/-- The winner of STEP 4 is one of the tied most common daytime labels. -/
theorem step4_some_spec {n : List (PyTime × String)} {c : String}
    (h : step4 n = some c) : c ∈ mostCommonList n := by
  unfold step4 at h
  by_cases hdc : (daytimeConds n).isEmpty = true
  · rw [if_pos hdc] at h
    exact Option.noConfusion h
  · rw [if_neg hdc] at h
    have hd : daytimeConds n ≠ [] := by simpa [List.isEmpty_iff] using hdc
    rcases hmc : mostCommonList n with _ | ⟨c1, rest1⟩
    · exact absurd hmc (mostCommonList_ne_nil hd)
    · rw [hmc] at h
      rcases rest1 with _ | ⟨d1, rest1b⟩
      · have hc : c1 = c := Option.some.inj h
        rw [← hc]
        exact List.mem_cons_self _ _
      · rcases hct : condTimes n with _ | ⟨e, rest2⟩
        · exact absurd hct (condTimes_ne_nil hd)
        · rw [hct] at h
          have hc : (minByTW e rest2).1 = c := Option.some.inj h
          have hmem : minByTW e rest2 ∈ condTimes n := by
            rw [hct]
            exact minByTW_mem rest2 e
          have hch := (mem_collectP _ n _).1 hmem
          obtain ⟨pr, -, hp, hprc⟩ := timesOfP_ne_nil_iff.1 hch.1
          have hp2 : (mostCommonList n).contains pr.2 = true :=
            (Bool.and_eq_true _ _ ▸ hp).1
          have hthis : pr.2 ∈ mostCommonList n := by simpa using hp2
          rw [hprc, hc, hmc] at hthis
          exact hthis

/-- The winner of STEP 4 carries the maximal count among the daytime
labels. -/
theorem step4_some_max {n : List (PyTime × String)} {c : String}
    (h : step4 n = some c) :
    c ∈ daytimeConds n ∧ ∀ d ∈ daytimeConds n,
      (daytimeConds n).count d ≤ (daytimeConds n).count c := by
  have hmc := step4_some_spec h
  obtain ⟨hin, hcnt⟩ := mem_mostCommonList.1 hmc
  refine ⟨hin, ?_⟩
  intro d hd
  have hdm : (d, (daytimeConds n).count d) ∈ countsInOrder (daytimeConds n) :=
    (mem_countsInOrder _ _).2 ⟨hd, rfl⟩
  have hub := maxCount_ub hdm
  rw [hcnt]
  exact hub

/-- STEP 4 returns nothing exactly when no pair lies in the daytime
window. -/
theorem step4_eq_none_iff {n : List (PyTime × String)} :
    step4 n = none ↔ daytimeConds n = [] := by
  unfold step4
  by_cases hdc : (daytimeConds n).isEmpty = true
  · rw [if_pos hdc]
    have hd : daytimeConds n = [] := by simpa [List.isEmpty_iff] using hdc
    simp [hd]
  · rw [if_neg hdc]
    have hd : daytimeConds n ≠ [] := by simpa [List.isEmpty_iff] using hdc
    rcases hmc : mostCommonList n with _ | ⟨c1, rest1⟩
    · exact absurd hmc (mostCommonList_ne_nil hd)
    · rcases rest1 with _ | ⟨d1, rest1b⟩
      · simp [hd]
      · rcases hct : condTimes n with _ | ⟨e, rest2⟩
        · exact absurd hct (condTimes_ne_nil hd)
        · simp [hd]

/-- In a count tie of STEP 4, the returned label minimizes the mean noon
distance over the daytime occurrences of the tied labels. -/
theorem step4_tie_spec {n : List (PyTime × String)} {c : String}
    (h : step4 n = some c) (htie : 2 ≤ (mostCommonList n).length) :
    ∃ ts, (c, ts) ∈ condTimes n ∧
      ∀ e ∈ condTimes n,
        timeWeightNum ts * e.2.length ≤ timeWeightNum e.2 * ts.length := by
  unfold step4 at h
  by_cases hdc : (daytimeConds n).isEmpty = true
  · rw [if_pos hdc] at h
    exact Option.noConfusion h
  · rw [if_neg hdc] at h
    have hd : daytimeConds n ≠ [] := by simpa [List.isEmpty_iff] using hdc
    rcases hmc : mostCommonList n with _ | ⟨c1, rest1⟩
    · rw [hmc] at htie
      simp at htie
    · rcases rest1 with _ | ⟨d1, rest1b⟩
      · rw [hmc] at htie
        simp at htie
      · rw [hmc] at h
        rcases hct : condTimes n with _ | ⟨e, rest2⟩
        · exact absurd hct (condTimes_ne_nil hd)
        · rw [hct] at h
          have hc : (minByTW e rest2).1 = c := Option.some.inj h
          have hmeme : e ∈ condTimes n := by
            rw [hct]
            exact List.mem_cons_self _ _
          have hene : e.2 ≠ [] := collect_entry_ne_nil e hmeme
          have hrne : ∀ x ∈ rest2, x.2 ≠ [] := by
            intro x hx
            have hmemx : x ∈ condTimes n := by
              rw [hct]
              exact List.mem_cons_of_mem _ hx
            exact collect_entry_ne_nil x hmemx
          refine ⟨(minByTW e rest2).2, ?_, ?_⟩
          · rw [← hc]
            exact minByTW_mem rest2 e
          · intro x hx
            exact minByTW_min rest2 e hene hrne x hx

/-- The five-way case split of select_daily_condition on a nonempty input:
one of the three tiers returns a truthy winner, or STEP 4 returns a winner,
or no pair is in the daytime window and STEP 5 decides. -/
theorem select_cases (ps : List (PyTime × String)) (hps : ps ≠ []) :
    (∃ w, severeStep (normalizePairs ps) = some w ∧ w ≠ "" ∧
      select_daily_condition ps = w) ∨
    (∃ w, pyTruthy (severeStep (normalizePairs ps)) = false ∧
      precipStep (normalizePairs ps) = some w ∧ w ≠ "" ∧
      select_daily_condition ps = w) ∨
    (∃ w, pyTruthy (severeStep (normalizePairs ps)) = false ∧
      pyTruthy (precipStep (normalizePairs ps)) = false ∧
      visStep (normalizePairs ps) = some w ∧ w ≠ "" ∧
      select_daily_condition ps = w) ∨
    (∃ w, pyTruthy (severeStep (normalizePairs ps)) = false ∧
      pyTruthy (precipStep (normalizePairs ps)) = false ∧
      pyTruthy (visStep (normalizePairs ps)) = false ∧
      step4 (normalizePairs ps) = some w ∧ select_daily_condition ps = w) ∨
    (pyTruthy (severeStep (normalizePairs ps)) = false ∧
      pyTruthy (precipStep (normalizePairs ps)) = false ∧
      pyTruthy (visStep (normalizePairs ps)) = false ∧
      step4 (normalizePairs ps) = none ∧
      select_daily_condition ps = step5 (normalizePairs ps)) := by
  unfold select_daily_condition
  rw [if_neg (by simpa [List.isEmpty_iff] using hps)]
  by_cases h1 : pyTruthy (severeStep (normalizePairs ps)) = true
  · rcases hs : severeStep (normalizePairs ps) with _ | w
    · rw [hs] at h1
      exact absurd h1 (by simp [pyTruthy])
    · rw [hs] at h1
      have hw : w ≠ "" := by simpa [pyTruthy] using h1
      refine Or.inl ⟨w, rfl, hw, ?_⟩
      rw [if_pos h1]
      rfl
  · have h1f : pyTruthy (severeStep (normalizePairs ps)) = false :=
      Bool.eq_false_iff.mpr h1
    rw [if_neg h1]
    by_cases h2 : pyTruthy (precipStep (normalizePairs ps)) = true
    · rcases hs : precipStep (normalizePairs ps) with _ | w
      · rw [hs] at h2
        exact absurd h2 (by simp [pyTruthy])
      · rw [hs] at h2
        have hw : w ≠ "" := by simpa [pyTruthy] using h2
        refine Or.inr (Or.inl ⟨w, h1f, rfl, hw, ?_⟩)
        rw [if_pos h2]
        rfl
    · have h2f : pyTruthy (precipStep (normalizePairs ps)) = false :=
        Bool.eq_false_iff.mpr h2
      rw [if_neg h2]
      by_cases h3 : pyTruthy (visStep (normalizePairs ps)) = true
      · rcases hs : visStep (normalizePairs ps) with _ | w
        · rw [hs] at h3
          exact absurd h3 (by simp [pyTruthy])
        · rw [hs] at h3
          have hw : w ≠ "" := by simpa [pyTruthy] using h3
          refine Or.inr (Or.inr (Or.inl ⟨w, h1f, h2f, rfl, hw, ?_⟩))
          rw [if_pos h3]
          rfl
      · have h3f : pyTruthy (visStep (normalizePairs ps)) = false :=
          Bool.eq_false_iff.mpr h3
        rw [if_neg h3]
        rcases hs4 : step4 (normalizePairs ps) with _ | w
        · refine Or.inr (Or.inr (Or.inr (Or.inr ⟨h1f, h2f, h3f, rfl, ?_⟩)))
          rfl
        · refine Or.inr (Or.inr (Or.inr (Or.inl ⟨w, h1f, h2f, h3f, rfl, ?_⟩)))
          rfl

/-- A winner of a tier step is the label of some input pair. -/
theorem tier_winner_mem {p : PyTime × String → Bool}
    {n : List (PyTime × String)} {t : Nat} {w : String}
    (h : select_from_tier (collectP p n) t = some w) :
    w ∈ n.map Prod.snd := by
  obtain ⟨ts, hts⟩ := select_from_tier_mem_top h
  have hq := (mem_topConditions.1 hts).1
  have hd := (mem_qualifying.1 hq).1
  have hch := (mem_collectP p n _).1 hd
  obtain ⟨pr, hpr, -, hprc⟩ := timesOfP_ne_nil_iff.1 hch.1
  exact List.mem_map.2 ⟨pr, hpr, hprc⟩

/-- On a nonempty input the selector returns the label of some normalized
pair. -/
theorem select_mem (ps : List (PyTime × String)) (hps : ps ≠ []) :
    select_daily_condition ps ∈ (normalizePairs ps).map Prod.snd := by
  rcases select_cases ps hps with
    ⟨w, hw, -, hsel⟩ | ⟨w, -, hw, -, hsel⟩ | ⟨w, -, -, hw, -, hsel⟩ |
    ⟨w, -, -, -, hw, hsel⟩ | ⟨-, -, -, hnone, hsel⟩
  · rw [hsel]
    exact tier_winner_mem hw
  · rw [hsel]
    exact tier_winner_mem hw
  · rw [hsel]
    exact tier_winner_mem hw
  · rw [hsel]
    have hin := (step4_some_max hw).1
    obtain ⟨pr, hpr, -, hprc⟩ := mem_daytimeConds.1 hin
    exact List.mem_map.2 ⟨pr, hpr, hprc⟩
  · rw [hsel]
    have hn : normalizePairs ps ≠ [] := by
      intro h
      exact hps (List.map_eq_nil_iff.1 h)
    have hxs : (normalizePairs ps).map Prod.snd ≠ [] :=
      fun h => hn (List.map_eq_nil_iff.1 h)
    rcases hf : firstMostCommon ((normalizePairs ps).map Prod.snd) with _ | c
    · exfalso
      unfold firstMostCommon at hf
      rcases hco : countsInOrder ((normalizePairs ps).map Prod.snd) with _ | ⟨e, rest⟩
      · exact countsInOrder_ne_nil hxs hco
      · rw [hco] at hf
        exact Option.noConfusion hf
    · have hspec := firstMostCommon_spec _ _ hf
      show step5 (normalizePairs ps) ∈ _
      unfold step5
      rw [hf]
      exact hspec.1

/-- C3: the selector never returns clear-night, on any input; five hours of
clear-night normalize to sunny. -/
theorem selector_never_returns_clear_night :
    (∀ ps : List (PyTime × String), select_daily_condition ps ≠ "clear-night") ∧
    select_daily_condition
      [(⟨8, 0⟩, "clear-night"), (⟨9, 0⟩, "clear-night"), (⟨10, 0⟩, "clear-night"),
       (⟨11, 0⟩, "clear-night"), (⟨12, 0⟩, "clear-night")] = "sunny" := by
  constructor
  · intro ps
    by_cases hps : ps = []
    · subst hps
      decide
    · have hmem := select_mem ps hps
      intro hcn
      rw [hcn] at hmem
      have hmem2 : "clear-night" ∈ ps.map (fun pr => normCond pr.2) := by
        have heq : (normalizePairs ps).map Prod.snd =
            ps.map (fun pr => normCond pr.2) := by
          unfold normalizePairs
          rw [List.map_map]
          rfl
        rw [← heq]
        exact hmem
      obtain ⟨pr, -, hpr⟩ := List.mem_map.1 hmem2
      unfold normCond at hpr
      by_cases h : pr.2 = "clear-night"
      · rw [if_pos h] at hpr
        exact absurd hpr (by decide)
      · rw [if_neg h] at hpr
        exact h hpr
  · rfl

/-- C5: when no severity tier fires, the selector returns a most frequent
condition of the daytime window; only when no pair lies in the window does
it return the most frequent condition of the whole normalized day, with
exact count ties broken in first-encountered order. -/
theorem fallback_most_frequent (ps : List (PyTime × String)) (hps : ps ≠ [])
    (h1 : pyTruthy (severeStep (normalizePairs ps)) = false)
    (h2 : pyTruthy (precipStep (normalizePairs ps)) = false)
    (h3 : pyTruthy (visStep (normalizePairs ps)) = false) :
    (daytimeConds (normalizePairs ps) ≠ [] →
      select_daily_condition ps ∈ daytimeConds (normalizePairs ps) ∧
      ∀ d ∈ daytimeConds (normalizePairs ps),
        (daytimeConds (normalizePairs ps)).count d ≤
          (daytimeConds (normalizePairs ps)).count (select_daily_condition ps)) ∧
    (daytimeConds (normalizePairs ps) = [] →
      select_daily_condition ps ∈ (normalizePairs ps).map Prod.snd ∧
      (∀ d ∈ (normalizePairs ps).map Prod.snd,
        ((normalizePairs ps).map Prod.snd).count d ≤
          ((normalizePairs ps).map Prod.snd).count (select_daily_condition ps)) ∧
      (∀ d ∈ (normalizePairs ps).map Prod.snd,
        ((normalizePairs ps).map Prod.snd).count d =
          ((normalizePairs ps).map Prod.snd).count (select_daily_condition ps) →
        ((normalizePairs ps).map Prod.snd).indexOf (select_daily_condition ps) ≤
          ((normalizePairs ps).map Prod.snd).indexOf d)) := by
  rcases select_cases ps hps with
    ⟨w, hw, hne, -⟩ | ⟨w, -, hw, hne, -⟩ | ⟨w, -, -, hw, hne, -⟩ |
    ⟨w, -, -, -, hw, hsel⟩ | ⟨-, -, -, hnone, hsel⟩
  · rw [hw] at h1
    simp [pyTruthy, hne] at h1
  · rw [hw] at h2
    simp [pyTruthy, hne] at h2
  · rw [hw] at h3
    simp [pyTruthy, hne] at h3
  · constructor
    · intro _
      rw [hsel]
      exact step4_some_max hw
    · intro hdc
      rw [step4_eq_none_iff.2 hdc] at hw
      exact Option.noConfusion hw
  · constructor
    · intro hdcne
      exact absurd (step4_eq_none_iff.1 hnone) hdcne
    · intro _
      rw [hsel]
      have hn : normalizePairs ps ≠ [] := by
        intro h
        exact hps (List.map_eq_nil_iff.1 h)
      have hxs : (normalizePairs ps).map Prod.snd ≠ [] :=
        fun h => hn (List.map_eq_nil_iff.1 h)
      rcases hf : firstMostCommon ((normalizePairs ps).map Prod.snd) with _ | c
      · exfalso
        unfold firstMostCommon at hf
        rcases hco : countsInOrder ((normalizePairs ps).map Prod.snd) with _ | ⟨e, rest⟩
        · exact countsInOrder_ne_nil hxs hco
        · rw [hco] at hf
          exact Option.noConfusion hf
      · have hspec := firstMostCommon_spec _ _ hf
        unfold step5
        rw [hf]
        simp only [Option.getD_some]
        exact ⟨hspec.1, hspec.2.1, hspec.2.2⟩

/-! ### Hour-only dependence of the selector -/

theorem normalizePairs_map (f : PyTime → PyTime) (ps : List (PyTime × String)) :
    normalizePairs (ps.map (fun pr => (f pr.1, pr.2))) =
      (normalizePairs ps).map (fun pr => (f pr.1, pr.2)) := by
  unfold normalizePairs
  rw [List.map_map, List.map_map]
  rfl

theorem addToDict_map (f : PyTime → PyTime) (d : CondDict) (c : String) (t : PyTime) :
    addToDict (d.map (fun e => (e.1, e.2.map f))) c (f t) =
      (addToDict d c t).map (fun e => (e.1, e.2.map f)) := by
  unfold addToDict
  have hany : (d.map (fun e => (e.1, e.2.map f))).any (fun e => e.1 = c) =
      d.any (fun e => e.1 = c) := by
    rw [List.any_map]
    rfl
  rw [hany]
  by_cases h : d.any (fun e => e.1 = c) = true
  · rw [if_pos h, if_pos h]
    rw [List.map_map, List.map_map]
    congr 1
    funext e
    by_cases hk : e.1 = c
    · simp [hk]
    · simp [hk]
  · rw [if_neg h, if_neg h]
    rw [List.map_append]
    rfl

theorem collectP_map (f : PyTime → PyTime) (p : PyTime × String → Bool)
    (hp : ∀ pr : PyTime × String, p (f pr.1, pr.2) = p pr) :
    ∀ ps : List (PyTime × String),
      collectP p (ps.map (fun pr => (f pr.1, pr.2))) =
        (collectP p ps).map (fun e => (e.1, e.2.map f)) := by
  intro ps
  induction ps using List.reverseRecOn with
  | nil => rfl
  | append_singleton l pr ih =>
    rw [List.map_append]
    show collectP p (l.map (fun pr => (f pr.1, pr.2)) ++ [(f pr.1, pr.2)]) = _
    rw [collectP_append_singleton, collectP_append_singleton]
    rw [hp pr]
    by_cases h : p pr = true
    · rw [if_pos h, if_pos h, ih]
      exact addToDict_map f (collectP p l) pr.2 pr.1
    · rw [if_neg h, if_neg h]
      exact ih

theorem timeWeightNum_map {f : PyTime → PyTime}
    (hf : ∀ t, (f t).hour = t.hour) (ts : List PyTime) :
    timeWeightNum (ts.map f) = timeWeightNum ts := by
  unfold timeWeightNum
  rw [List.map_map]
  congr 1
  apply List.map_congr_left
  intro t _
  show dist12 (f t).hour = dist12 t.hour
  rw [hf t]

theorem twLt_map {f : PyTime → PyTime} (hf : ∀ t, (f t).hour = t.hour)
    (a b : String × List PyTime) :
    twLt (a.1, a.2.map f) (b.1, b.2.map f) = twLt a b := by
  unfold twLt
  simp only [timeWeightNum_map hf, List.length_map]

theorem minByTW_map {f : PyTime → PyTime} (hf : ∀ t, (f t).hour = t.hour) :
    ∀ (rest : List (String × List PyTime)) (e : String × List PyTime),
      minByTW (e.1, e.2.map f) (rest.map (fun x => (x.1, x.2.map f))) =
        ((minByTW e rest).1, (minByTW e rest).2.map f) := by
  intro rest
  induction rest with
  | nil => intro e; rfl
  | cons x rest ih =>
    intro e
    show minByTW (if twLt (x.1, x.2.map f) (e.1, e.2.map f) then (x.1, x.2.map f)
        else (e.1, e.2.map f)) (rest.map (fun x => (x.1, x.2.map f))) = _
    rw [twLt_map hf]
    by_cases h : twLt x e = true
    · rw [if_pos h]
      have := ih x
      rw [this]
      show ((minByTW x rest).1, (minByTW x rest).2.map f) =
        ((minByTW e (x :: rest)).1, (minByTW e (x :: rest)).2.map f)
      have hfold : minByTW e (x :: rest) = minByTW x rest := by
        show List.foldl _ (if twLt x e then x else e) rest = _
        rw [if_pos h]
        rfl
      rw [hfold]
    · rw [if_neg h]
      have := ih e
      rw [this]
      have hfold : minByTW e (x :: rest) = minByTW e rest := by
        show List.foldl _ (if twLt x e then x else e) rest = _
        rw [if_neg h]
        rfl
      rw [hfold]

theorem select_from_tier_map {f : PyTime → PyTime}
    (hf : ∀ t, (f t).hour = t.hour) (d : CondDict) (th : Nat) :
    select_from_tier (d.map (fun e => (e.1, e.2.map f))) th =
      select_from_tier d th := by
  have hqual : qualifying (d.map (fun e => (e.1, e.2.map f))) th =
      (qualifying d th).map (fun e => (e.1, e.2.map f)) := by
    unfold qualifying
    rw [List.filter_map]
    congr 1
    apply List.filter_congr
    intro e _
    simp [List.length_map]
  have hsev : tierMaxSev ((qualifying d th).map (fun e => (e.1, e.2.map f))) =
      tierMaxSev (qualifying d th) := by
    unfold tierMaxSev
    rw [List.map_map]
    rfl
  have htop : topConditions ((qualifying d th).map (fun e => (e.1, e.2.map f))) =
      (topConditions (qualifying d th)).map (fun e => (e.1, e.2.map f)) := by
    unfold topConditions
    rw [hsev, List.filter_map]
    rfl
  unfold select_from_tier
  rw [hqual, htop]
  have hemp : (d.map (fun e => (e.1, e.2.map f))).isEmpty = d.isEmpty := by
    rcases d with _ | ⟨e, d⟩ <;> rfl
  have hemp2 : ((qualifying d th).map (fun e => (e.1, e.2.map f))).isEmpty =
      (qualifying d th).isEmpty := by
    rcases qualifying d th with _ | ⟨e, q⟩ <;> rfl
  rw [hemp, hemp2]
  rcases htc : topConditions (qualifying d th) with _ | ⟨e, rest⟩
  · rfl
  · rcases rest with _ | ⟨g, rest2⟩
    · rfl
    · show (if d.isEmpty = true then none else _) = _
      by_cases hde : d.isEmpty = true
      · rw [if_pos hde, if_pos hde]
      · rw [if_neg hde, if_neg hde]
        by_cases hqe : (qualifying d th).isEmpty = true
        · rw [if_pos hqe, if_pos hqe]
        · rw [if_neg hqe, if_neg hqe]
          show some (minByTW (e.1, e.2.map f)
            ((g :: rest2).map (fun x => (x.1, x.2.map f)))).1 = _
          rw [minByTW_map hf]

theorem daytimeConds_map {f : PyTime → PyTime}
    (hf : ∀ t, (f t).hour = t.hour) (n : List (PyTime × String)) :
    daytimeConds (n.map (fun pr => (f pr.1, pr.2))) = daytimeConds n := by
  unfold daytimeConds
  rw [List.filter_map]
  have hcong : List.filter ((fun pr : PyTime × String => daytimeOk pr.1) ∘
      fun pr : PyTime × String => (f pr.1, pr.2)) n =
      List.filter (fun pr : PyTime × String => daytimeOk pr.1) n := by
    apply List.filter_congr
    intro pr _
    show daytimeOk (f pr.1) = daytimeOk pr.1
    unfold daytimeOk
    rw [hf]
  rw [hcong, List.map_map]
  rfl

theorem mostCommonList_map {f : PyTime → PyTime}
    (hf : ∀ t, (f t).hour = t.hour) (n : List (PyTime × String)) :
    mostCommonList (n.map (fun pr => (f pr.1, pr.2))) = mostCommonList n := by
  unfold mostCommonList
  rw [daytimeConds_map hf]

theorem condTimes_map {f : PyTime → PyTime}
    (hf : ∀ t, (f t).hour = t.hour) (n : List (PyTime × String)) :
    condTimes (n.map (fun pr => (f pr.1, pr.2))) =
      (condTimes n).map (fun e => (e.1, e.2.map f)) := by
  unfold condTimes
  rw [mostCommonList_map hf]
  refine collectP_map f _ ?_ n
  intro pr
  show ((mostCommonList n).contains pr.2 && daytimeOk (f pr.1)) = _
  unfold daytimeOk
  rw [hf]

theorem step4_map {f : PyTime → PyTime}
    (hf : ∀ t, (f t).hour = t.hour) (n : List (PyTime × String)) :
    step4 (n.map (fun pr => (f pr.1, pr.2))) = step4 n := by
  unfold step4
  rw [daytimeConds_map hf, mostCommonList_map hf, condTimes_map hf]
  rcases mostCommonList n with _ | ⟨c1, rest1⟩
  · rcases hct : condTimes n with _ | ⟨e, rest2⟩
    · rfl
    · show _ = if (daytimeConds n).isEmpty = true then none
        else some (minByTW e rest2).1
      by_cases hdc : (daytimeConds n).isEmpty = true
      · rw [if_pos hdc, if_pos hdc]
      · rw [if_neg hdc, if_neg hdc]
        show some (minByTW (e.1, e.2.map f)
          (rest2.map (fun x => (x.1, x.2.map f)))).1 = _
        rw [minByTW_map hf]
  · rcases rest1 with _ | ⟨d1, rest1b⟩
    · rfl
    · rcases hct : condTimes n with _ | ⟨e, rest2⟩
      · rfl
      · show _ = if (daytimeConds n).isEmpty = true then none
          else some (minByTW e rest2).1
        by_cases hdc : (daytimeConds n).isEmpty = true
        · rw [if_pos hdc, if_pos hdc]
        · rw [if_neg hdc, if_neg hdc]
          show some (minByTW (e.1, e.2.map f)
            (rest2.map (fun x => (x.1, x.2.map f)))).1 = _
          rw [minByTW_map hf]

theorem step5_map (f : PyTime → PyTime) (n : List (PyTime × String)) :
    step5 (n.map (fun pr => (f pr.1, pr.2))) = step5 n := by
  unfold step5
  rw [List.map_map]
  rfl

theorem severeStep_map {f : PyTime → PyTime}
    (hf : ∀ t, (f t).hour = t.hour) (n : List (PyTime × String)) :
    severeStep (n.map (fun pr => (f pr.1, pr.2))) = severeStep n := by
  unfold severeStep severeDict
  rw [collectP_map f isSevere (fun pr => rfl) n, select_from_tier_map hf]

theorem precipStep_map {f : PyTime → PyTime}
    (hf : ∀ t, (f t).hour = t.hour) (n : List (PyTime × String)) :
    precipStep (n.map (fun pr => (f pr.1, pr.2))) = precipStep n := by
  unfold precipStep precipDict
  rw [collectP_map f isPrecip (fun pr => rfl) n, select_from_tier_map hf]

theorem visStep_map {f : PyTime → PyTime}
    (hf : ∀ t, (f t).hour = t.hour) (n : List (PyTime × String)) :
    visStep (n.map (fun pr => (f pr.1, pr.2))) = visStep n := by
  unfold visStep visDict
  rw [collectP_map f isVis (fun pr => rfl) n, select_from_tier_map hf]

/-- The whole selector reads only the hour component of the timestamps. -/
theorem select_daily_condition_map {f : PyTime → PyTime}
    (hf : ∀ t, (f t).hour = t.hour) (ps : List (PyTime × String)) :
    select_daily_condition (ps.map (fun pr => (f pr.1, pr.2))) =
      select_daily_condition ps := by
  unfold select_daily_condition
  have hemp : (ps.map (fun pr => (f pr.1, pr.2))).isEmpty = ps.isEmpty := by
    rcases ps with _ | ⟨pr, ps⟩ <;> rfl
  rw [hemp, normalizePairs_map, severeStep_map hf, precipStep_map hf,
    visStep_map hf, step4_map hf, step5_map]

/-- C6: in every severity-tier tie and in the STEP 4 count tie, the selector
returns a tied condition minimizing the mean absolute distance of the
integer hour component from hour 12 (stated by cross multiplication of the
exact means), and sub-hour detail of the timestamps never influences the
result. -/
theorem tie_break_integer_hour_noon_distance :
    (∀ (d : CondDict) (t : Nat) (w : String), (∀ e ∈ d, e.2 ≠ []) →
      select_from_tier d t = some w →
      ∃ ts, (w, ts) ∈ topConditions (qualifying d t) ∧
        ∀ e ∈ topConditions (qualifying d t),
          timeWeightNum ts * e.2.length ≤ timeWeightNum e.2 * ts.length) ∧
    (∀ (n : List (PyTime × String)) (c : String), step4 n = some c →
      2 ≤ (mostCommonList n).length →
      ∃ ts, (c, ts) ∈ condTimes n ∧
        ∀ e ∈ condTimes n,
          timeWeightNum ts * e.2.length ≤ timeWeightNum e.2 * ts.length) ∧
    (∀ f : PyTime → PyTime, (∀ t, (f t).hour = t.hour) →
      ∀ ps : List (PyTime × String),
        select_daily_condition (ps.map (fun pr => (f pr.1, pr.2))) =
          select_daily_condition ps) :=
  ⟨fun _ _ _ hd h => select_from_tier_min_spec hd h,
   fun _ _ h htie => step4_tie_spec h htie,
   fun _ hf ps => select_daily_condition_map hf ps⟩

/-! ### Concrete witnesses -/

theorem severe_safety_override_witness :
    90 ≤ sevOf "lightning" ∧
    THRESHOLD_severe ≤ occCount
      [(⟨8, 0⟩, "cloudy"), (⟨9, 0⟩, "cloudy"), (⟨10, 0⟩, "lightning"),
       (⟨11, 0⟩, "cloudy"), (⟨12, 0⟩, "cloudy"), (⟨13, 0⟩, "cloudy")] "lightning" ∧
    90 ≤ sevOf (select_daily_condition
      [(⟨8, 0⟩, "cloudy"), (⟨9, 0⟩, "cloudy"), (⟨10, 0⟩, "lightning"),
       (⟨11, 0⟩, "cloudy"), (⟨12, 0⟩, "cloudy"), (⟨13, 0⟩, "cloudy")]) :=
  ⟨by decide, by decide,
    (severe_safety_override
      [(⟨8, 0⟩, "cloudy"), (⟨9, 0⟩, "cloudy"), (⟨10, 0⟩, "lightning"),
       (⟨11, 0⟩, "cloudy"), (⟨12, 0⟩, "cloudy"), (⟨13, 0⟩, "cloudy")]
      "lightning" (by decide) (by decide)).1⟩

theorem tier_qualification_iff_occurrences_witness :
    ∃ e ∈ qualifying (precipDict (normalizePairs
      [(⟨8, 0⟩, "cloudy"), (⟨9, 0⟩, "cloudy"), (⟨10, 0⟩, "rainy"),
       (⟨10, 30⟩, "rainy"), (⟨11, 0⟩, "rainy"), (⟨12, 0⟩, "cloudy"),
       (⟨13, 0⟩, "cloudy")])) THRESHOLD_precipitation, e.1 = "rainy" :=
  ((tier_qualification_iff_occurrences
      [(⟨8, 0⟩, "cloudy"), (⟨9, 0⟩, "cloudy"), (⟨10, 0⟩, "rainy"),
       (⟨10, 30⟩, "rainy"), (⟨11, 0⟩, "rainy"), (⟨12, 0⟩, "cloudy"),
       (⟨13, 0⟩, "cloudy")] "rainy").2.1).mpr ⟨⟨by decide, by decide⟩, by decide⟩

theorem selector_never_returns_clear_night_witness :
    select_daily_condition [(⟨8, 0⟩, "rainy")] ≠ "clear-night" :=
  (selector_never_returns_clear_night).1 [(⟨8, 0⟩, "rainy")]

theorem fallback_most_frequent_witness :
    select_daily_condition [(⟨8, 0⟩, "cloudy"), (⟨9, 0⟩, "sunny"), (⟨10, 0⟩, "cloudy")] ∈
      daytimeConds (normalizePairs
        [(⟨8, 0⟩, "cloudy"), (⟨9, 0⟩, "sunny"), (⟨10, 0⟩, "cloudy")]) :=
  ((fallback_most_frequent
      [(⟨8, 0⟩, "cloudy"), (⟨9, 0⟩, "sunny"), (⟨10, 0⟩, "cloudy")]
      (by decide) (by decide) (by decide) (by decide)).1 (by decide)).1

theorem tie_break_integer_hour_noon_distance_witness :
    select_daily_condition
      (([(⟨9, 0⟩, "cloudy"), (⟨10, 0⟩, "sunny")] : List (PyTime × String)).map
        (fun pr => ((⟨pr.1.hour, 45⟩ : PyTime), pr.2))) =
      select_daily_condition [(⟨9, 0⟩, "cloudy"), (⟨10, 0⟩, "sunny")] :=
  (tie_break_integer_hour_noon_distance).2.2
    (fun t => ⟨t.hour, 45⟩) (fun _ => rfl)
    [(⟨9, 0⟩, "cloudy"), (⟨10, 0⟩, "sunny")]

theorem unknown_label_ordinary_witness :
    severeStep (normalizePairs [(⟨8, 0⟩, "sunny")]) ≠ some "weird" :=
  ((unknown_label_ordinary).1 [(⟨8, 0⟩, "sunny")] "weird" (by decide)).2.1

theorem daily_precipitation_is_sum_of_present_witness :
    (dailyRecord [(⟨0, ⟨0, 0⟩, "sunny", RawVal.absent, RawVal.absent⟩ :
      HourlyRecord)]).precipitation_total = none :=
  (((daily_precipitation_is_sum_of_present).1
      [(⟨0, ⟨0, 0⟩, "sunny", RawVal.absent, RawVal.absent⟩ : HourlyRecord)]
      [(⟨0, ⟨0, 0⟩, "sunny", RawVal.absent, RawVal.absent⟩ : HourlyRecord)]
      (List.mem_singleton.mpr rfl)).1).mpr rfl

theorem daily_temperature_high_ge_low_witness : (15 : ℚ) ≤ 15 :=
  (daily_temperature_high_ge_low).1
    [(⟨0, ⟨0, 0⟩, "sunny", RawVal.val 15, RawVal.absent⟩ : HourlyRecord)]
    (dailyRecord
      [(⟨0, ⟨0, 0⟩, "sunny", RawVal.val 15, RawVal.absent⟩ : HourlyRecord)])
    (List.mem_singleton.mpr rfl) 15 15 rfl rfl
